import Mathlib

/-!
Shallow embedding of the value-graph engine and the event queue of
`src/main.rs` (crate `prototype4`), together with proofs settling the
specification claims about them.

Modelling conventions:

* The scalar type `half::f16` is embedded as `F16`: either `nan` or a
  rational.  The four arithmetic operators (and the commit step's
  `base + change`) round their exact result to the `f16` grid with
  round-to-nearest, ties-to-even (`roundF16q`), subnormals included, so
  rounding effects — e.g. a small delta absorbed by a large base — are
  modelled faithfully.  The source computes `f16::from_f32(x ⊕ y)` on
  `f16` operands widened to `f32`; because `f32` carries 24 significand
  bits and `f16` 11, and `24 ≥ 2·11 + 2`, double rounding through `f32`
  is innocuous for `+ - * /`, so rounding the exact rational result
  directly is the same function.  Infinities are not distinguished:
  results at or beyond the `f16` overflow threshold are collapsed to the
  largest finite magnitude `65504` (only the NaN-ness of a value is
  observable by the code itself, through the `partial_cmp(..).unwrap()`
  calls inside the `MAX`/`MIN` operators, so this collapse is invisible
  to every claim).  Results of `powf`/`log` that are irrational are
  collapsed to the stand-in value `fin 0`; no theorem below depends on
  the numeric result of those operators.
* Rust `u8`/`u16` indices are embedded as `ℕ`; graphs beyond the 2^16
  node-count of the source's `u16` indices are out of scope.
* A Rust panic (index out of bounds, or `Option::unwrap` on `None`
  inside `MAX`/`MIN`) is embedded as an `Except` error; `UFail.oob` for
  an out-of-bounds index, `UFail.panicked` for the `unwrap` of a failed
  `partial_cmp`.  The non-termination of the recompute pass on a cyclic
  graph is detected exactly (an outer iteration that removes no node
  leaves the state unchanged, so the source loops forever precisely when
  a scan produces an empty batch) and embedded as `UFail.cycle`.
-/

namespace P4

/-- Embedding of `half::f16`: a NaN marker or an exact rational.  See the
module docstring for the conventions. -/
inductive F16 where
  | nan : F16
  | fin : ℚ → F16
deriving DecidableEq

/-- Embedding of Rust `PartialOrd::partial_cmp` on `f16`: `None` exactly
when one of the operands is NaN. -/
def cmpF16 : F16 → F16 → Option Ordering
  | .nan, _ => none
  | _, .nan => none
  | .fin a, .fin b => some (if a < b then .lt else if b < a then .gt else .eq)

/-- Bit length of a natural number, written with explicit fuel so that
it reduces inside the kernel. -/
def bitLenF : ℕ → ℕ → ℕ
  | 0, _ => 0
  | fuel + 1, n => if n ≤ 1 then n else bitLenF fuel (n / 2) + 1

/-- Does the positive rational `num / den` reach `2 ^ e`? -/
def gePow2 (num den : ℕ) (e : ℤ) : Bool :=
  if 0 ≤ e then den * 2 ^ e.toNat ≤ num else den ≤ num * 2 ^ (-e).toNat

/-- Rounds an exact rational to the nearest `half::f16` value
(round-to-nearest, ties-to-even, subnormals included), the rounding the
source applies via `f16::from_f32` after every arithmetic operator and
after the commit step's `base + change`.  `e` is the clamped binade
exponent, `k` the rounded 11-bit significand count of units in the last
place `2 ^ (e - 10)`.  Magnitudes that would overflow to an `f16`
infinity are collapsed to the largest finite value `65504`, matching
the module convention that infinities are not distinguished. -/
def roundF16q (q : ℚ) : ℚ :=
  if q = 0 then 0
  else
    let sgn := q.num < 0
    let na := q.num.natAbs
    let da := q.den
    let e1 : ℤ := (bitLenF na na : ℤ) - (bitLenF da da : ℤ)
    let e2 : ℤ := if gePow2 na da e1 then e1 else e1 - 1
    let e : ℤ := if e2 < -14 then -14 else if 15 < e2 then 15 else e2
    let sh : ℤ := 10 - e
    let N := na * 2 ^ (if 0 ≤ sh then sh.toNat else 0)
    let D := da * 2 ^ (if 0 ≤ sh then 0 else (-sh).toNat)
    let k0 := N / D
    let r := N % D
    let k := if 2 * r < D then k0
             else if D < 2 * r then k0 + 1
             else if k0 % 2 = 0 then k0 else k0 + 1
    let k2 := if e = 15 ∧ 2047 < k then 2047 else k
    let scaled : ℕ := k2 * 2 ^ (e + 14).toNat
    mkRat (if sgn then -(scaled : ℤ) else (scaled : ℤ)) (2 ^ 24)

/-- Source `SET`: `|x, y| *x = *y`. -/
def fSET (_x y : F16) : F16 := y

/-- Source `MAX`: `max_by(*x, *y, |x, y| x.partial_cmp(y).unwrap())`.
`none` embeds the panic of `unwrap` on incomparable (NaN) operands;
`std::cmp::max_by` returns its first argument only on `Greater`. -/
def fMAX (x y : F16) : Option F16 :=
  (cmpF16 x y).map (fun o => if o = .gt then x else y)

/-- Source `MIN`: `min_by(*x, *y, |x, y| x.partial_cmp(y).unwrap())`.
`std::cmp::min_by` returns its second argument only on `Greater`. -/
def fMIN (x y : F16) : Option F16 :=
  (cmpF16 x y).map (fun o => if o = .gt then y else x)

/-- Source `ADD`: exact sum rounded to the `f16` grid; NaN
propagates. -/
def fADD : F16 → F16 → F16
  | .fin a, .fin b => .fin (roundF16q (a + b))
  | _, _ => .nan

/-- Source `SUBT`: exact difference rounded to the `f16` grid. -/
def fSUBT : F16 → F16 → F16
  | .fin a, .fin b => .fin (roundF16q (a - b))
  | _, _ => .nan

/-- Source `MULT`: exact product rounded to the `f16` grid. -/
def fMULT : F16 → F16 → F16
  | .fin a, .fin b => .fin (roundF16q (a * b))
  | _, _ => .nan

/-- Source `DIV`.  Total, like `f32` division: `0/0` is NaN, `x/0` for
`x ≠ 0` is an infinity, collapsed here to the finite stand-in `fin 0`. -/
def fDIV : F16 → F16 → F16
  | .fin a, .fin b =>
      if b = 0 then (if a = 0 then .nan else .fin 0)
      else .fin (roundF16q (a / b))
  | _, _ => .nan

/-- Source `POW` (`x.powf(y)`).  Total.  IEEE `pow(x, 0) = 1` and
`pow(1, y) = 1` even for NaN arguments; a negative base with a
non-integer exponent gives NaN; irrational results are collapsed to the
stand-in `fin 0`. -/
def fPOW : F16 → F16 → F16
  | x, .fin q =>
      if q = 0 then .fin 1
      else match x with
        | .nan => .nan
        | .fin a =>
            if q.den = 1 then .fin (a ^ q.num)
            else if a < 0 then .nan else .fin 0
  | .fin a, .nan => if a = 1 then .fin 1 else .nan
  | .nan, .nan => .nan

/-- Source `ROOT`: `x.powf(1. / y)`, written through the embedded
division exactly as the source composes it. -/
def fROOT (x y : F16) : F16 := fPOW x (fDIV (.fin 1) y)

/-- Source `LOG` (`x.log(y)`).  Total; NaN for a negative argument or
base; all other (irrational in general) results collapsed to the
stand-in `fin 0`. -/
def fLOG : F16 → F16 → F16
  | .fin a, .fin b => if a < 0 ∨ b < 0 then .nan else .fin 0
  | _, _ => .nan

/-- Embedding of the `FUNCS` table lookup plus application: index `f`
selects the operator, `x` is the accumulated value, `y` the parent's
value.  `none` means the applied function panicked (only `MAX`/`MIN`
can, on a NaN operand); indices `≥ 10` are handled by the caller as an
out-of-bounds table access before reaching this point. -/
def applyFunc (f : ℕ) (x y : F16) : Option F16 :=
  match f with
  | 0 => some (fSET x y)
  | 1 => fMAX x y
  | 2 => fMIN x y
  | 3 => some (fADD x y)
  | 4 => some (fSUBT x y)
  | 5 => some (fMULT x y)
  | 6 => some (fDIV x y)
  | 7 => some (fPOW x y)
  | 8 => some (fROOT x y)
  | 9 => some (fLOG x y)
  | _ => none

/-- Source `get_func`: operator-name lookup, `10` for an unknown name. -/
def get_func (name : String) : ℕ :=
  if name = "SET" then 0
  else if name = "MAX" then 1
  else if name = "MIN" then 2
  else if name = "ADD" then 3
  else if name = "SUBT" then 4
  else if name = "MULT" then 5
  else if name = "DIV" then 6
  else if name = "POW" then 7
  else if name = "ROOT" then 8
  else if name = "LOG" then 9
  else 10

/-- Source `struct Value`: base value, current value, pending delta, and
an optional index into the manager's `paras` table. -/
structure Value where
  base : F16
  value : F16
  change : F16
  paras : Option ℕ
deriving DecidableEq

/-- Source `struct ValueManager`: named nodes plus the table of
(operator, parent-index) lists. -/
structure ValueManager where
  values : List (String × Value)
  paras : List (List (ℕ × ℕ))
deriving DecidableEq

/-- Node at index `i`, if any. -/
def getNode (m : ValueManager) (i : ℕ) : Option Value :=
  (m.values[i]?).map (fun nv => nv.2)

/-- Current value of node `i` (`fin 0` default outside the graph; every
use below is guarded by an in-bounds condition). -/
def valueAt (m : ValueManager) (i : ℕ) : F16 :=
  ((getNode m i).map (fun v => v.value)).getD (.fin 0)

/-- Base value of node `i`. -/
def baseAt (m : ValueManager) (i : ℕ) : F16 :=
  ((getNode m i).map (fun v => v.base)).getD (.fin 0)

/-- Pending delta of node `i`. -/
def changeAt (m : ValueManager) (i : ℕ) : F16 :=
  ((getNode m i).map (fun v => v.change)).getD (.fin 0)

/-- The (operator, parent) list of node `i`: empty for a leaf, for an
out-of-range node, or for a dangling `paras` index (the last case would
be an index panic in the source; theorems about arbitrary states carry a
well-formedness hypothesis excluding it). -/
def parasSteps (m : ValueManager) (i : ℕ) : List (ℕ × ℕ) :=
  match getNode m i with
  | none => []
  | some v =>
    match v.paras with
    | none => []
    | some pidx => (m.paras[pidx]?).getD []

/-- Source `add_value`: resolves each (operator-name, parent-name) pair
against the already-registered nodes, silently skipping a pair whose
parent name is not found, pushes the resolved list into `paras` when the
operator list is non-empty, and appends the node with current value and
base both equal to `base` and a zero pending delta.  (The source indexes
`parents[i]` for each `i < funcs.len()` and would panic on shorter
`parents`; as in every use in the source, the two lists are taken here
componentwise via `zip`.) -/
def ValueManager.add_value (m : ValueManager) (name : String) (base : F16)
    (funcs : List String) (parents : List String) : ValueManager :=
  let pairs := (funcs.zip parents).filterMap (fun fp =>
    (m.values.findIdx? (fun nv => nv.1 = fp.2)).map (fun ii => (get_func fp.1, ii)))
  match funcs with
  | [] => { m with values := m.values ++ [(name, ⟨base, base, .fin 0, none⟩)] }
  | _ :: _ =>
      { values := m.values ++ [(name, ⟨base, base, .fin 0, some m.paras.length⟩)],
        paras := m.paras ++ [pairs] }

/-- Source `ValueManager::new`: the empty manager seeded with the five
constant leaves. -/
def vmNew : ValueManager :=
  (((((ValueManager.mk [] []).add_value "0" (.fin 0) [] []).add_value
    "1" (.fin 1) [] []).add_value "-1" (.fin (-1)) [] []).add_value
    "2" (.fin 2) [] []).add_value "-2" (.fin (-2)) [] []

/-- Models an external writer pushing a pending delta through a node's
shared handle: the `change` slot of node `i` becomes `d`. -/
def writeChange (m : ValueManager) (i : ℕ) (d : F16) : ValueManager :=
  match m.values[i]? with
  | some nv => { m with values := m.values.set i (nv.1, { nv.2 with change := d }) }
  | none => m

/-- Sets the current value of node `i` (the publish step at the end of a
recomputation). -/
def setValueAt (m : ValueManager) (i : ℕ) (x : F16) : ValueManager :=
  match m.values[i]? with
  | some nv => { m with values := m.values.set i (nv.1, { nv.2 with value := x }) }
  | none => m

/-- Failure modes of `update()`: an index panic, the `unwrap` panic
inside `MAX`/`MIN`, or the non-termination of the recompute pass (an
outer iteration that removes nothing repeats forever in the source). -/
inductive UFail where
  | oob : UFail
  | panicked : UFail
  | cycle : UFail
deriving DecidableEq

/-- Commit of one node in the first phase of `update()`: the pending
delta is folded into the base (`f16` addition) and zeroed. -/
def commitNode (m : ValueManager) (i : ℕ) : ValueManager :=
  match m.values[i]? with
  | some nv =>
      let nv' := (nv.1, { nv.2 with base := fADD nv.2.base nv.2.change, change := F16.fin 0 })
      { m with values := m.values.set i nv' }
  | none => m

/-- Commit phase of `update()` over the index list `cands` (called on
`0..values.len()`): a node whose delta satisfies the source's
`change.to_f32() != 0.` test (true also for NaN) is committed and its
index appended to the dirty list. -/
def commitLoop (m : ValueManager) (upd : List ℕ) : List ℕ → ValueManager × List ℕ
  | [] => (m, upd)
  | i :: rest =>
      if changeAt m i ≠ F16.fin 0
      then commitLoop (commitNode m i) (upd ++ [i]) rest
      else commitLoop m upd rest

/-- Commit phase of `update()`: scan all nodes in index order. -/
def commit (m : ValueManager) : ValueManager × List ℕ :=
  commitLoop m [] (List.range m.values.length)

/-- Inner loop of the expansion phase: every node `ii` (scanned in index
order) that lists `i` among its parents and is not yet dirty is appended
to both the dirty list and the stack. -/
def childScan (m : ValueManager) (i : ℕ) :
    List ℕ → List ℕ → List ℕ → List ℕ × List ℕ
  | [], upd, stk => (upd, stk)
  | ii :: rest, upd, stk =>
      if (∃ fp ∈ parasSteps m ii, fp.2 = i) ∧ ii ∉ upd
      then childScan m i rest (upd ++ [ii]) (stk ++ [ii])
      else childScan m i rest upd stk

/-- Expansion phase of `update()`: a work-list reachability walk that
pops the last stack element and appends its not-yet-dirty children
(`stack.pop()` / `push` on a Rust `Vec`).  The recursion is bounded by
an explicit fuel, shown below (`expandF_fuel_irrelevant`) to be
irrelevant at the value `update()` passes: the walk always terminates
because every push strictly shrinks the set of indices below
`values.len()` still outside the dirty list. -/
def expandF (m : ValueManager) : ℕ → List ℕ → List ℕ → List ℕ
  | _, upd, [] => upd
  | 0, upd, _ :: _ => upd
  | fuel + 1, upd, s :: ss =>
      let i := (s :: ss).getLast (List.cons_ne_nil s ss)
      let stk := (s :: ss).dropLast
      let p := childScan m i (List.range m.values.length) upd stk
      expandF m fuel p.1 p.2

/-- Membership test of the recompute scan: does node `i` have a parent
that is still in the dirty list `l`? -/
def hasDirtyParent (m : ValueManager) (i : ℕ) (l : List ℕ) : Prop :=
  ∃ fp ∈ parasSteps m i, fp.2 ∈ l

instance (m : ValueManager) (i : ℕ) (l : List ℕ) :
    Decidable (hasDirtyParent m i l) := by
  unfold hasDirtyParent; infer_instance

/-- One scan of the recompute phase, mirroring the source's downward
index walk with in-place removal: `te` holds the not-yet-examined dirty
nodes in reverse order (the source scans indices downward, so the head
is examined first), `kept` the already-examined nodes that stayed dirty,
in original order.  At the moment node `i` is examined the dirty vector
consists of `i`, the unexamined elements and the kept elements, which is
exactly the membership test performed.  Returns the batch of removed
nodes in removal order and the remaining dirty list in original order. -/
def scanRev (m : ValueManager) : List ℕ → List ℕ → List ℕ × List ℕ
  | [], kept => ([], kept)
  | i :: rest, kept =>
      if hasDirtyParent m i (i :: (rest ++ kept))
      then scanRev m rest (i :: kept)
      else
        let p := scanRev m rest kept
        (i :: p.1, p.2)

/-- One outer-iteration scan of the recompute phase on the dirty list
`upd` in its current order. -/
def scanBatch (m : ValueManager) (upd : List ℕ) : List ℕ × List ℕ :=
  scanRev m upd.reverse []

/-- The fold `for (func, parent) in paras { FUNCS[func](&mut value,
&values[parent].value) }`: `oob` for an operator index `≥ 10` (an
out-of-bounds `FUNCS` access, possible because `get_func` encodes an
unknown name as `10`) or an out-of-range parent index, `panicked` when
`MAX`/`MIN` meet a NaN. -/
def foldF16 (m : ValueManager) : List (ℕ × ℕ) → F16 → Except UFail F16
  | [], acc => .ok acc
  | (f, p) :: rest, acc =>
      if 10 ≤ f then .error .oob
      else
        match m.values[p]? with
        | none => .error .oob
        | some pv =>
            match applyFunc f acc pv.2.value with
            | none => .error .panicked
            | some acc' => foldF16 m rest acc'

/-- The recomputed value of node `i` in state `m`: the node's base
folded through its declared operators against its parents' current
values. -/
def nodeFoldE (m : ValueManager) (i : ℕ) : Except UFail F16 :=
  match m.values[i]? with
  | none => .error .oob
  | some nv =>
      match nv.2.paras with
      | none => .ok nv.2.base
      | some pidx =>
          match m.paras[pidx]? with
          | none => .error .oob
          | some steps => foldF16 m steps nv.2.base

/-- Recompute node `i` and publish the result into its value slot. -/
def recomputeOne (m : ValueManager) (i : ℕ) : Except UFail ValueManager :=
  (nodeFoldE m i).map (fun x => setValueAt m i x)

/-- Recompute one batch in removal order; each recomputation reads the
values already published by the earlier members of the batch, exactly as
the source's in-place loop does. -/
def recomputeBatch (m : ValueManager) : List ℕ → Except UFail ValueManager
  | [] => .ok m
  | i :: rest =>
      match recomputeOne m i with
      | .error e => .error e
      | .ok m' => recomputeBatch m' rest

/-- Outer loop of the recompute phase.  `tr` accumulates the recompute
trace (the concatenation of all batches), an instrumentation absent from
the source but needed to state the at-most-once-per-tick property.  An
empty batch leaves the dirty list and the state unchanged, so the source
would loop forever: this is reported as `UFail.cycle`.  The fuel is
`upd.length` at the call site, which suffices because every successful
iteration removes at least one node. -/
def recomputeLoopF (m : ValueManager) (tr : List ℕ) :
    ℕ → List ℕ → Except UFail (ValueManager × List ℕ)
  | _, [] => .ok (m, tr)
  | 0, _ :: _ => .error .cycle
  | fuel + 1, u :: us =>
      let p := scanBatch m (u :: us)
      if p.1.isEmpty then .error .cycle
      else
        match recomputeBatch m p.1 with
        | .error e => .error e
        | .ok m' => recomputeLoopF m' (tr ++ p.1) fuel p.2

/-- Source `ValueManager::update`, instrumented with the recompute
trace: commit the pending deltas, expand the dirty set through the
child relation, then repeatedly recompute and remove the dirty nodes
none of whose parents are still dirty. -/
def runUpdate (m : ValueManager) : Except UFail (ValueManager × List ℕ) :=
  let c := commit m
  let upd := expandF c.1 (2 * c.1.values.length + c.2.length) c.2 c.2
  recomputeLoopF c.1 [] upd.length upd

/-- Source `ValueManager::update` (the observable state transformer). -/
def ValueManager.update (m : ValueManager) : Except UFail ValueManager :=
  (runUpdate m).map (fun p => p.1)

/-- Node `p` is a declared parent of node `c`. -/
def isParent (m : ValueManager) (p c : ℕ) : Prop :=
  ∃ fp ∈ parasSteps m c, fp.2 = p

/-- Reflexive-transitive closure of the child relation: `Reaches m i j`
states that `j` is `i` itself or a transitive descendant of `i`. -/
inductive Reaches (m : ValueManager) (i : ℕ) : ℕ → Prop
  | refl : Reaches m i i
  | step {j k : ℕ} : Reaches m i j → isParent m j k → Reaches m i k

/-- Acyclicity of the parent/child relation, witnessed by a rank
function that strictly increases from parent to child. -/
def Acyclic (m : ValueManager) : Prop :=
  ∃ rank : ℕ → ℕ, ∀ c, ∀ fp ∈ parasSteps m c, rank fp.2 < rank c

/-- Decidable sufficient condition for acyclicity satisfied by every
graph the construction API can build: every parent index is smaller
than its child's index. -/
def childGtParents (m : ValueManager) : Bool :=
  (List.range m.values.length).all
    (fun c => (parasSteps m c).all (fun fp => fp.2 < c))

/-- Well-formedness of a manager state: every stored `paras` index is
inside the `paras` table and every stored parent index is inside the
node list.  Guaranteed by the construction API; an ill-formed state
would make the source's expansion scan panic where the embedding's
total `parasSteps` yields `[]`. -/
def WFVM (m : ValueManager) : Prop :=
  (∀ nv ∈ m.values, ∀ pidx, nv.2.paras = some pidx → pidx < m.paras.length) ∧
  (∀ steps ∈ m.paras, ∀ fp ∈ steps, fp.2 < m.values.length)

instance {ε σ : Type} [DecidableEq ε] [DecidableEq σ] : DecidableEq (Except ε σ) := fun a b =>
  match a, b with
  | .ok x, .ok y =>
      if h : x = y then .isTrue (by rw [h]) else .isFalse (by simp [h])
  | .error x, .error y =>
      if h : x = y then .isTrue (by rw [h]) else .isFalse (by simp [h])
  | .ok _, .error _ => .isFalse (by simp)
  | .error _, .ok _ => .isFalse (by simp)

/-- Node `i` currently stores exactly the value obtained by folding its
base through its operators against its parents' current values (and
that fold does not panic). -/
def consistentAt (m : ValueManager) (i : ℕ) : Prop :=
  nodeFoldE m i = .ok (valueAt m i)

instance (m : ValueManager) (i : ℕ) : Decidable (consistentAt m i) := by
  unfold consistentAt; infer_instance

/-- Minimal model of the external `legion` entity store: the set of live
entities (entity deletion is the only store operation the event queue
itself performs; component changes go through the caller-supplied
function carried by the event). -/
structure SimWorld where
  ents : List ℕ
deriving DecidableEq

/-- Source `World::delete`. -/
def deleteEntity (w : SimWorld) (e : ℕ) : SimWorld :=
  ⟨w.ents.filter (fun x => x ≠ e)⟩

/-- Source `enum LoopEvent`: its three variants.  The `Box<dyn Any>`
payload is embedded as the type parameter `α`, the resource set as `ρ`,
and the carried function pointers as Lean functions. -/
inductive LoopEvent (ρ α : Type) where
  | RemoveEntity : ℕ → LoopEvent ρ α
  | ChangeComponent : ℕ → α → (SimWorld → ℕ → α → SimWorld) → LoopEvent ρ α
  | ChangeResource : α → (ρ → α → ρ) → LoopEvent ρ α

/-- The kinds of queued event the submission interface offers. -/
inductive LoopEventKind where
  | RemoveEntity : LoopEventKind
  | ChangeComponent : LoopEventKind
  | ChangeResource : LoopEventKind
deriving DecidableEq, Fintype

/-- Classifies an event by its kind. -/
def kindOf {ρ α : Type} : LoopEvent ρ α → LoopEventKind
  | .RemoveEntity _ => .RemoveEntity
  | .ChangeComponent _ _ _ => .ChangeComponent
  | .ChangeResource _ _ => .ChangeResource

/-- The match arms of source `handle_event`: deletion removes the
entity, a component change invokes the carried function on the world,
a resource change invokes it on the resources. -/
def applyLoopEvent {ρ α : Type} (w : SimWorld) (r : ρ) :
    LoopEvent ρ α → SimWorld × ρ
  | .RemoveEntity e => (deleteEntity w e, r)
  | .ChangeComponent e payload f => (f w e payload, r)
  | .ChangeResource payload f => (w, f r payload)

/-- Source `handle_event`: drain the queued events in FIFO order,
applying each in turn. -/
def handle_event {ρ α : Type} (w : SimWorld) (r : ρ)
    (events : List (LoopEvent ρ α)) : SimWorld × ρ :=
  events.foldl (fun wr ev => applyLoopEvent wr.1 wr.2 ev) (w, r)

/-! ### State-shape lemmas -/

theorem setValueAt_oob {m : ValueManager} {i : ℕ} (x : F16)
    (h : m.values.length ≤ i) : setValueAt m i x = m := by
  unfold setValueAt
  rw [List.getElem?_eq_none h]

theorem paras_setValueAt (m : ValueManager) (i : ℕ) (x : F16) :
    (setValueAt m i x).paras = m.paras := by
  unfold setValueAt
  cases h : m.values[i]? <;> simp

theorem length_setValueAt (m : ValueManager) (i : ℕ) (x : F16) :
    (setValueAt m i x).values.length = m.values.length := by
  unfold setValueAt
  cases h : m.values[i]? <;> simp

theorem getNode_setValueAt_ne (m : ValueManager) {i j : ℕ} (x : F16) (h : j ≠ i) :
    getNode (setValueAt m i x) j = getNode m j := by
  unfold setValueAt getNode
  cases hv : m.values[i]? <;> simp [List.getElem?_set_ne (Ne.symm h)]

theorem getNode_setValueAt_self {m : ValueManager} {i : ℕ} (x : F16)
    (h : i < m.values.length) :
    ∃ v, getNode m i = some v ∧
      getNode (setValueAt m i x) i = some { v with value := x } := by
  obtain ⟨nv, hnv⟩ : ∃ nv, m.values[i]? = some nv := by
    rw [List.getElem?_eq_getElem h]; exact ⟨_, rfl⟩
  refine ⟨nv.2, ?_, ?_⟩
  · simp [getNode, hnv]
  · unfold setValueAt getNode
    simp [hnv, List.getElem?_set_self h]

theorem valueAt_setValueAt_self {m : ValueManager} {i : ℕ} (x : F16)
    (h : i < m.values.length) : valueAt (setValueAt m i x) i = x := by
  obtain ⟨v, _, hv⟩ := getNode_setValueAt_self x h
  simp [valueAt, hv]

theorem baseAt_setValueAt (m : ValueManager) (i j : ℕ) (x : F16) :
    baseAt (setValueAt m i x) j = baseAt m j := by
  by_cases hj : j = i
  · subst hj
    by_cases h : j < m.values.length
    · obtain ⟨v, hv, hv'⟩ := getNode_setValueAt_self x h
      simp [baseAt, hv, hv']
    · rw [setValueAt_oob x (Nat.le_of_not_lt h)]
  · rw [baseAt, getNode_setValueAt_ne m x hj, baseAt]

theorem changeAt_setValueAt (m : ValueManager) (i j : ℕ) (x : F16) :
    changeAt (setValueAt m i x) j = changeAt m j := by
  by_cases hj : j = i
  · subst hj
    by_cases h : j < m.values.length
    · obtain ⟨v, hv, hv'⟩ := getNode_setValueAt_self x h
      simp [changeAt, hv, hv']
    · rw [setValueAt_oob x (Nat.le_of_not_lt h)]
  · rw [changeAt, getNode_setValueAt_ne m x hj, changeAt]

theorem parasSteps_setValueAt (m : ValueManager) (i j : ℕ) (x : F16) :
    parasSteps (setValueAt m i x) j = parasSteps m j := by
  by_cases hj : j = i
  · subst hj
    by_cases h : j < m.values.length
    · obtain ⟨v, hv, hv'⟩ := getNode_setValueAt_self x h
      simp [parasSteps, hv, hv', paras_setValueAt]
    · rw [setValueAt_oob x (Nat.le_of_not_lt h)]
  · rw [parasSteps, getNode_setValueAt_ne m x hj, paras_setValueAt, parasSteps]

theorem valueAt_setValueAt_ne (m : ValueManager) {i j : ℕ} (x : F16) (h : j ≠ i) :
    valueAt (setValueAt m i x) j = valueAt m j := by
  rw [valueAt, getNode_setValueAt_ne m x h, valueAt]

theorem commitNode_oob {m : ValueManager} {i : ℕ}
    (h : m.values.length ≤ i) : commitNode m i = m := by
  unfold commitNode
  rw [List.getElem?_eq_none h]

theorem paras_commitNode (m : ValueManager) (i : ℕ) :
    (commitNode m i).paras = m.paras := by
  unfold commitNode
  cases h : m.values[i]? <;> simp

theorem length_commitNode (m : ValueManager) (i : ℕ) :
    (commitNode m i).values.length = m.values.length := by
  unfold commitNode
  cases h : m.values[i]? <;> simp

theorem getNode_commitNode_ne (m : ValueManager) {i j : ℕ} (h : j ≠ i) :
    getNode (commitNode m i) j = getNode m j := by
  unfold commitNode getNode
  cases hv : m.values[i]? <;> simp [List.getElem?_set_ne (Ne.symm h)]

theorem getNode_commitNode_self {m : ValueManager} {i : ℕ}
    (h : i < m.values.length) :
    ∃ v, getNode m i = some v ∧
      getNode (commitNode m i) i =
        some { v with base := fADD v.base v.change, change := .fin 0 } := by
  obtain ⟨nv, hnv⟩ : ∃ nv, m.values[i]? = some nv := by
    rw [List.getElem?_eq_getElem h]; exact ⟨_, rfl⟩
  refine ⟨nv.2, ?_, ?_⟩
  · simp [getNode, hnv]
  · unfold commitNode getNode
    simp [hnv, List.getElem?_set_self h]

theorem valueAt_commitNode (m : ValueManager) (i j : ℕ) :
    valueAt (commitNode m i) j = valueAt m j := by
  by_cases hj : j = i
  · subst hj
    by_cases h : j < m.values.length
    · obtain ⟨v, hv, hv'⟩ := getNode_commitNode_self h
      simp [valueAt, hv, hv']
    · rw [commitNode_oob (Nat.le_of_not_lt h)]
  · rw [valueAt, getNode_commitNode_ne m hj, valueAt]

theorem parasSteps_commitNode (m : ValueManager) (i j : ℕ) :
    parasSteps (commitNode m i) j = parasSteps m j := by
  by_cases hj : j = i
  · subst hj
    by_cases h : j < m.values.length
    · obtain ⟨v, hv, hv'⟩ := getNode_commitNode_self h
      simp [parasSteps, hv, hv', paras_commitNode]
    · rw [commitNode_oob (Nat.le_of_not_lt h)]
  · rw [parasSteps, getNode_commitNode_ne m hj, paras_commitNode, parasSteps]

theorem baseAt_commitNode_ne (m : ValueManager) {i j : ℕ} (h : j ≠ i) :
    baseAt (commitNode m i) j = baseAt m j := by
  rw [baseAt, getNode_commitNode_ne m h, baseAt]

theorem changeAt_commitNode_ne (m : ValueManager) {i j : ℕ} (h : j ≠ i) :
    changeAt (commitNode m i) j = changeAt m j := by
  rw [changeAt, getNode_commitNode_ne m h, changeAt]

theorem baseAt_commitNode_self {m : ValueManager} {i : ℕ}
    (h : i < m.values.length) :
    baseAt (commitNode m i) i = fADD (baseAt m i) (changeAt m i) := by
  obtain ⟨v, hv, hv'⟩ := getNode_commitNode_self h
  simp [baseAt, changeAt, hv, hv']

theorem changeAt_commitNode_self {m : ValueManager} {i : ℕ}
    (h : i < m.values.length) :
    changeAt (commitNode m i) i = F16.fin 0 := by
  obtain ⟨v, hv, hv'⟩ := getNode_commitNode_self h
  simp [changeAt, hv, hv']

/-! ### Commit phase -/

theorem lt_of_changeAt_ne {m : ValueManager} {i : ℕ}
    (h : changeAt m i ≠ F16.fin 0) : i < m.values.length := by
  by_contra hn
  apply h
  simp [changeAt, getNode, List.getElem?_eq_none (Nat.le_of_not_lt hn)]

/-- Full characterization of the commit loop on a duplicate-free index
list: the dirty list collects exactly the indices with a non-zero delta,
committed nodes get their delta folded into the base and zeroed, all
other nodes and every current value are untouched. -/
theorem commitLoop_spec (cands : List ℕ) :
    ∀ (m : ValueManager) (upd : List ℕ), cands.Nodup →
    (commitLoop m upd cands).2 =
        upd ++ cands.filter (fun i => decide (changeAt m i ≠ F16.fin 0)) ∧
    (∀ j, j ∉ cands → getNode (commitLoop m upd cands).1 j = getNode m j) ∧
    (∀ j, changeAt m j = F16.fin 0 →
        getNode (commitLoop m upd cands).1 j = getNode m j) ∧
    (∀ j ∈ cands, changeAt m j ≠ F16.fin 0 →
        baseAt (commitLoop m upd cands).1 j = fADD (baseAt m j) (changeAt m j) ∧
        changeAt (commitLoop m upd cands).1 j = F16.fin 0) ∧
    (commitLoop m upd cands).1.values.length = m.values.length ∧
    (commitLoop m upd cands).1.paras = m.paras ∧
    (∀ j, parasSteps (commitLoop m upd cands).1 j = parasSteps m j) ∧
    (∀ j, valueAt (commitLoop m upd cands).1 j = valueAt m j) := by
  induction cands with
  | nil => intro m upd _; simp [commitLoop]
  | cons i rest ih =>
    intro m upd hnd
    have hi : i ∉ rest := (List.nodup_cons.mp hnd).1
    have hrest : rest.Nodup := (List.nodup_cons.mp hnd).2
    by_cases hc : changeAt m i ≠ F16.fin 0
    · have hlt : i < m.values.length := lt_of_changeAt_ne hc
      have heq : commitLoop m upd (i :: rest) =
          commitLoop (commitNode m i) (upd ++ [i]) rest := by
        simp [commitLoop, hc]
      obtain ⟨ih1, ih2, ih3, ih4, ih5, ih6, ih7, ih8⟩ := ih (commitNode m i) (upd ++ [i]) hrest
      have hch : ∀ j, j ≠ i → changeAt (commitNode m i) j = changeAt m j :=
        fun j hj => changeAt_commitNode_ne m hj
      refine ⟨?_, ?_, ?_, ?_, ?_, ?_, ?_, ?_⟩
      · rw [heq, ih1]
        have : rest.filter (fun j => decide (changeAt (commitNode m i) j ≠ F16.fin 0)) =
            rest.filter (fun j => decide (changeAt m j ≠ F16.fin 0)) := by
          apply List.filter_congr
          intro j hj
          rw [hch j (fun h => hi (h ▸ hj))]
        rw [this]
        simp [hc]
      · intro j hj
        rw [heq, ih2 j (fun h => hj (List.mem_cons_of_mem i h)),
          getNode_commitNode_ne m (fun h => hj (by rw [h]; exact List.mem_cons_self i rest))]
      · intro j hj
        have hji : j ≠ i := fun h => hc (h ▸ hj)
        rw [heq, ih3 j (by rw [hch j hji]; exact hj), getNode_commitNode_ne m hji]
      · intro j hj hcj
        rcases List.mem_cons.mp hj with hj | hj
        · subst hj
          rw [heq]
          constructor
          · rw [show baseAt (commitLoop (commitNode m j) (upd ++ [j]) rest).1 j =
                baseAt (commitNode m j) j from by rw [baseAt, ih2 j hi, baseAt]]
            exact baseAt_commitNode_self hlt
          · rw [show changeAt (commitLoop (commitNode m j) (upd ++ [j]) rest).1 j =
                changeAt (commitNode m j) j from by rw [changeAt, ih2 j hi, changeAt]]
            exact changeAt_commitNode_self hlt
        · have hji : j ≠ i := fun h => hi (h ▸ hj)
          rw [heq]
          obtain ⟨h1, h2⟩ := ih4 j hj (by rw [hch j hji]; exact hcj)
          rw [hch j hji] at h1
          refine ⟨?_, h2⟩
          rw [h1, baseAt, getNode_commitNode_ne m hji, ← baseAt]
      · rw [heq, ih5, length_commitNode]
      · rw [heq, ih6, paras_commitNode]
      · intro j; rw [heq, ih7 j, parasSteps_commitNode]
      · intro j; rw [heq, ih8 j, valueAt_commitNode]
    · push_neg at hc
      have heq : commitLoop m upd (i :: rest) = commitLoop m upd rest := by
        simp [commitLoop, hc]
      obtain ⟨ih1, ih2, ih3, ih4, ih5, ih6, ih7, ih8⟩ := ih m upd hrest
      refine ⟨?_, ?_, ?_, ?_, ?_, ?_, ?_, ?_⟩
      · rw [heq, ih1]; simp [hc]
      · exact fun j hj => heq ▸ ih2 j (fun h => hj (List.mem_cons_of_mem i h))
      · exact fun j hj => heq ▸ ih3 j hj
      · intro j hj hcj
        rcases List.mem_cons.mp hj with hj | hj
        · exact absurd (by rw [hj]; exact hc) hcj
        · exact heq ▸ ih4 j hj hcj
      · exact heq ▸ ih5
      · exact heq ▸ ih6
      · exact fun j => heq ▸ ih7 j
      · exact fun j => heq ▸ ih8 j

/-! ### Expansion phase -/

theorem lt_of_isParent {m : ValueManager} {p c : ℕ} (h : isParent m p c) :
    c < m.values.length := by
  obtain ⟨fp, hfp, _⟩ := h
  by_contra hn
  rw [parasSteps, getNode, List.getElem?_eq_none (Nat.le_of_not_lt hn)] at hfp
  simp at hfp

/-- Count of the in-range indices not yet dirty; the termination measure
of the expansion walk. -/
def restCount (n : ℕ) (u : List ℕ) : ℕ :=
  ((Finset.range n).filter (fun x => x ∉ u)).card

theorem restCount_append_lt {n : ℕ} {u : List ℕ} {x : ℕ}
    (hx : x < n) (hu : x ∉ u) : restCount n (u ++ [x]) < restCount n u := by
  apply Finset.card_lt_card
  constructor
  · intro y hy
    simp only [Finset.mem_filter, Finset.mem_range] at hy ⊢
    refine ⟨hy.1, fun hmem => hy.2 ?_⟩
    simp [hmem]
  · intro hsub
    have := hsub (by simp [hx, hu] : x ∈ (Finset.range n).filter (fun y => y ∉ u))
    simp at this

/-- The inner child-scan appends the same new indices to the dirty list
and the stack: exactly the scanned candidates that list `i` as a parent
and are not yet dirty (each checked against the dirty list as it grows,
so the appended indices are mutually distinct and fresh). -/
theorem childScan_spec (m : ValueManager) (i : ℕ) :
    ∀ (cands upd stk : List ℕ),
    ∃ adds, childScan m i cands upd stk = (upd ++ adds, stk ++ adds) ∧
      (∀ x ∈ adds, x ∈ cands ∧ isParent m i x ∧ x ∉ upd) ∧
      (upd.Nodup → (upd ++ adds).Nodup) := by
  intro cands
  induction cands with
  | nil => intro upd stk; exact ⟨[], by simp [childScan]⟩
  | cons ii rest ih =>
    intro upd stk
    by_cases hg : (∃ fp ∈ parasSteps m ii, fp.2 = i) ∧ ii ∉ upd
    · obtain ⟨adds, hEq, hMem, hNd⟩ := ih (upd ++ [ii]) (stk ++ [ii])
      refine ⟨ii :: adds, ?_, ?_, ?_⟩
      · simp only [childScan, if_pos hg]
        rw [hEq]; simp
      · intro x hx
        rcases List.mem_cons.mp hx with hx | hx
        · subst hx
          exact ⟨List.mem_cons_self x rest, hg.1, hg.2⟩
        · obtain ⟨hc, hp, hu⟩ := hMem x hx
          exact ⟨List.mem_cons_of_mem ii hc, hp,
            fun hmem => hu (List.mem_append_left [ii] hmem)⟩
      · intro hnd
        have : (upd ++ [ii]).Nodup := by
          rw [List.nodup_append]
          refine ⟨hnd, List.nodup_singleton ii, ?_⟩
          intro a ha hai
          rw [List.mem_singleton] at hai
          exact hg.2 (hai ▸ ha)
        simpa using hNd this
    · obtain ⟨adds, hEq, hMem, hNd⟩ := ih upd stk
      refine ⟨adds, ?_, ?_, hNd⟩
      · simp only [childScan, if_neg hg]
        exact hEq
      · exact fun x hx =>
          ⟨List.mem_cons_of_mem ii (hMem x hx).1, (hMem x hx).2.1, (hMem x hx).2.2⟩

/-- After the child-scan, every in-candidate child of `i` is dirty. -/
theorem childScan_complete (m : ValueManager) (i : ℕ) :
    ∀ (cands upd stk : List ℕ) (c : ℕ), c ∈ cands → isParent m i c →
      c ∈ (childScan m i cands upd stk).1 := by
  intro cands
  induction cands with
  | nil => intro upd stk c hc; simp at hc
  | cons ii rest ih =>
    intro upd stk c hc hp
    by_cases hg : (∃ fp ∈ parasSteps m ii, fp.2 = i) ∧ ii ∉ upd
    · rw [show childScan m i (ii :: rest) upd stk =
          childScan m i rest (upd ++ [ii]) (stk ++ [ii]) from by
        simp only [childScan, if_pos hg]]
      rcases List.mem_cons.mp hc with hc | hc
      · subst hc
        obtain ⟨adds, hEq, _, _⟩ := childScan_spec m i rest (upd ++ [c]) (stk ++ [c])
        rw [hEq]
        simp
      · exact ih (upd ++ [ii]) (stk ++ [ii]) c hc hp
    · rw [show childScan m i (ii :: rest) upd stk = childScan m i rest upd stk from by
        simp only [childScan, if_neg hg]]
      rcases List.mem_cons.mp hc with hc | hc
      · subst hc
        have hin : c ∈ upd := by
          by_contra hn
          exact hg ⟨hp, hn⟩
        obtain ⟨adds, hEq, _, _⟩ := childScan_spec m i rest upd stk
        rw [hEq]
        exact List.mem_append_left adds hin
      · exact ih upd stk c hc hp

/-- The child-scan strictly decreases the expansion measure by at least
the number of stack pops it will enable: each push adds one stack entry
but removes one in-range index from the non-dirty complement. -/
theorem childScan_measure (m : ValueManager) (i n : ℕ) :
    ∀ (cands upd stk : List ℕ), (∀ x ∈ cands, x < n) →
      (childScan m i cands upd stk).2.length +
        2 * restCount n (childScan m i cands upd stk).1 ≤
      stk.length + 2 * restCount n upd := by
  intro cands
  induction cands with
  | nil => intro upd stk _; simp [childScan]
  | cons ii rest ih =>
    intro upd stk hlt
    by_cases hg : (∃ fp ∈ parasSteps m ii, fp.2 = i) ∧ ii ∉ upd
    · rw [show childScan m i (ii :: rest) upd stk =
          childScan m i rest (upd ++ [ii]) (stk ++ [ii]) from by
        simp only [childScan, if_pos hg]]
      have h1 := ih (upd ++ [ii]) (stk ++ [ii])
        (fun x hx => hlt x (List.mem_cons_of_mem ii hx))
      have h2 : restCount n (upd ++ [ii]) < restCount n upd :=
        restCount_append_lt (hlt ii (List.mem_cons_self ii rest)) hg.2
      simp only [List.length_append, List.length_singleton] at h1
      omega
    · rw [show childScan m i (ii :: rest) upd stk = childScan m i rest upd stk from by
        simp only [childScan, if_neg hg]]
      exact ih upd stk (fun x hx => hlt x (List.mem_cons_of_mem ii hx))

theorem Reaches.trans {m : ValueManager} {a b c : ℕ}
    (h1 : Reaches m a b) (h2 : Reaches m b c) : Reaches m a c := by
  induction h2 with
  | refl => exact h1
  | step _ hp ih => exact .step ih hp

theorem expandF_nil (m : ValueManager) (fuel : ℕ) (upd : List ℕ) :
    expandF m fuel upd [] = upd := by
  cases fuel <;> rfl

/-- Main properties of the expansion walk, given enough fuel: the dirty
list only grows, it ends closed under the child relation, every element
of it is reachable from the initial dirty set, and it stays
duplicate-free. -/
theorem expandF_spec (m : ValueManager) :
    ∀ (fuel : ℕ) (upd stk : List ℕ),
      (∀ x ∈ stk, x ∈ upd) →
      (∀ j ∈ upd, j ∉ stk → ∀ c, isParent m j c → c ∈ upd) →
      stk.length + 2 * restCount m.values.length upd ≤ fuel →
      (∃ adds, expandF m fuel upd stk = upd ++ adds) ∧
      (∀ j ∈ expandF m fuel upd stk, ∀ c, isParent m j c →
        c ∈ expandF m fuel upd stk) ∧
      (∀ x ∈ expandF m fuel upd stk, ∃ j ∈ upd, Reaches m j x) ∧
      (upd.Nodup → (expandF m fuel upd stk).Nodup) := by
  intro fuel
  induction fuel with
  | zero =>
    intro upd stk h1 h2 h3
    cases stk with
    | nil =>
      rw [expandF_nil]
      exact ⟨⟨[], by simp⟩, fun j hj _ hc => h2 j hj (by simp) _ hc,
        fun x hx => ⟨x, hx, .refl⟩, fun h => h⟩
    | cons s ss => simp at h3
  | succ fuel ih =>
    intro upd stk h1 h2 h3
    cases stk with
    | nil =>
      rw [expandF_nil]
      exact ⟨⟨[], by simp⟩, fun j hj _ hc => h2 j hj (by simp) _ hc,
        fun x hx => ⟨x, hx, .refl⟩, fun h => h⟩
    | cons s ss =>
      have hne : s :: ss ≠ [] := List.cons_ne_nil s ss
      set i := (s :: ss).getLast hne with hidef
      have hstk_eq : (s :: ss).dropLast ++ [i] = s :: ss :=
        List.dropLast_append_getLast hne
      have hi_upd : i ∈ upd := h1 i (List.getLast_mem hne)
      obtain ⟨adds, hcsEq, hcsMem, hcsNd⟩ :=
        childScan_spec m i (List.range m.values.length) upd ((s :: ss).dropLast)
      have hstep : expandF m (fuel + 1) upd (s :: ss) =
          expandF m fuel (upd ++ adds) ((s :: ss).dropLast ++ adds) := by
        show expandF m fuel
          (childScan m i (List.range m.values.length) upd ((s :: ss).dropLast)).1
          (childScan m i (List.range m.values.length) upd ((s :: ss).dropLast)).2 =
          _
        rw [hcsEq]
      have hsub_drop : ∀ x ∈ (s :: ss).dropLast, x ∈ s :: ss :=
        fun x hx => (List.dropLast_sublist (s :: ss)).subset hx
      -- invariants for the recursive call
      have h1' : ∀ x ∈ (s :: ss).dropLast ++ adds, x ∈ upd ++ adds := by
        intro x hx
        rcases List.mem_append.mp hx with hx | hx
        · exact List.mem_append_left adds (h1 x (hsub_drop x hx))
        · exact List.mem_append_right upd hx
      have h2' : ∀ j ∈ upd ++ adds, j ∉ (s :: ss).dropLast ++ adds →
          ∀ c, isParent m j c → c ∈ upd ++ adds := by
        intro j hj hnj c hc
        rcases List.mem_append.mp hj with hj | hj
        · by_cases hjs : j ∈ s :: ss
          · have hj_last : j = i := by
              rcases List.mem_append.mp (hstk_eq ▸ hjs) with h | h
              · exact absurd (List.mem_append_left adds h) hnj
              · simpa using h
            subst hj_last
            have : c ∈ (childScan m i (List.range m.values.length) upd
                ((s :: ss).dropLast)).1 :=
              childScan_complete m i _ upd _ c
                (List.mem_range.mpr (lt_of_isParent hc)) hc
            rwa [hcsEq] at this
          · exact List.mem_append_left adds
              (h2 j hj (fun hmem => hjs hmem) c hc)
        · exact absurd (List.mem_append_right ((s :: ss).dropLast) hj) hnj
      have h3' : ((s :: ss).dropLast ++ adds).length +
          2 * restCount m.values.length (upd ++ adds) ≤ fuel := by
        have hms := childScan_measure m i m.values.length
          (List.range m.values.length) upd ((s :: ss).dropLast)
          (fun x hx => List.mem_range.mp hx)
        rw [hcsEq] at hms
        have hlen : (s :: ss).dropLast.length = ss.length := by
          simp
        simp only [List.length_append] at hms ⊢
        simp only [List.length_cons] at h3
        omega
      obtain ⟨c1, c2, c3, c4⟩ := ih (upd ++ adds) ((s :: ss).dropLast ++ adds) h1' h2' h3'
      rw [hstep]
      refine ⟨?_, c2, ?_, ?_⟩
      · obtain ⟨adds2, hadds2⟩ := c1
        exact ⟨adds ++ adds2, by rw [hadds2, List.append_assoc]⟩
      · intro x hx
        obtain ⟨j, hj, hr⟩ := c3 x hx
        rcases List.mem_append.mp hj with hj | hj
        · exact ⟨j, hj, hr⟩
        · obtain ⟨_, hp, _⟩ := hcsMem j hj
          exact ⟨i, hi_upd, Reaches.trans (.step .refl hp) hr⟩
      · exact fun hnd => c4 (hcsNd hnd)

/-! ### Recompute-phase scan -/

theorem not_hasDirtyParent_iff (m : ValueManager) (i : ℕ) (l : List ℕ) :
    ¬ hasDirtyParent m i l ↔ ∀ fp ∈ parasSteps m i, fp.2 ∉ l := by
  simp [hasDirtyParent]

/-- The scan outputs draw from its inputs. -/
theorem scanRev_subset (m : ValueManager) :
    ∀ (te kept : List ℕ),
      (∀ x ∈ (scanRev m te kept).1, x ∈ te) ∧
      (∀ x ∈ (scanRev m te kept).2, x ∈ te ∨ x ∈ kept) := by
  intro te
  induction te with
  | nil => intro kept; simp [scanRev]
  | cons i rest ih =>
    intro kept
    by_cases hg : hasDirtyParent m i (i :: (rest ++ kept))
    · rw [show scanRev m (i :: rest) kept = scanRev m rest (i :: kept) from by
        simp only [scanRev, if_pos hg]]
      obtain ⟨ih1, ih2⟩ := ih (i :: kept)
      refine ⟨fun x hx => List.mem_cons_of_mem i (ih1 x hx), fun x hx => ?_⟩
      rcases ih2 x hx with h | h
      · exact Or.inl (List.mem_cons_of_mem i h)
      · rcases List.mem_cons.mp h with h | h
        · exact Or.inl (by rw [h]; exact List.mem_cons_self i rest)
        · exact Or.inr h
    · rw [show scanRev m (i :: rest) kept =
          ((i :: (scanRev m rest kept).1), (scanRev m rest kept).2) from by
        simp only [scanRev, if_neg hg]]
      obtain ⟨ih1, ih2⟩ := ih kept
      refine ⟨fun x hx => ?_, fun x hx => ?_⟩
      · rcases List.mem_cons.mp hx with h | h
        · exact h ▸ List.mem_cons_self i rest
        · exact List.mem_cons_of_mem i (ih1 x h)
      · rcases ih2 x hx with h | h
        · exact Or.inl (List.mem_cons_of_mem i h)
        · exact Or.inr h

/-- The scan partitions its input: batch and kept list together hold
exactly the occurrences of the examined and previously-kept nodes. -/
theorem scanRev_count (m : ValueManager) :
    ∀ (te kept : List ℕ) (x : ℕ),
      (scanRev m te kept).1.count x + (scanRev m te kept).2.count x =
        te.count x + kept.count x := by
  intro te
  induction te with
  | nil => intro kept x; simp [scanRev]
  | cons i rest ih =>
    intro kept x
    by_cases hg : hasDirtyParent m i (i :: (rest ++ kept))
    · rw [show scanRev m (i :: rest) kept = scanRev m rest (i :: kept) from by
        simp only [scanRev, if_pos hg]]
      rw [ih (i :: kept) x]
      simp [List.count_cons]
      omega
    · rw [show scanRev m (i :: rest) kept =
          ((i :: (scanRev m rest kept).1), (scanRev m rest kept).2) from by
        simp only [scanRev, if_neg hg]]
      dsimp only
      have h := ih kept x
      by_cases hxi : x = i
      · subst hxi
        simp only [List.count_cons_self]
        omega
      · rw [List.count_cons_of_ne hxi, List.count_cons_of_ne hxi]
        omega

/-- Batch-order property of the scan: when node `z` enters the batch,
none of its parents is still dirty — not `z` itself, not a later batch
member, not a node the whole pass keeps dirty.  (Its parents may be
*earlier* batch members, which are recomputed before it.) -/
theorem scanRev_order (m : ValueManager) :
    ∀ (te kept : List ℕ) (b1 : List ℕ) (z : ℕ) (b2 : List ℕ),
      (scanRev m te kept).1 = b1 ++ z :: b2 →
      ∀ fp ∈ parasSteps m z, fp.2 ∉ z :: b2 ∧ fp.2 ∉ (scanRev m te kept).2 := by
  intro te
  induction te with
  | nil => intro kept b1 z b2 h; simp [scanRev] at h
  | cons i rest ih =>
    intro kept b1 z b2 hsplit fp hfp
    by_cases hg : hasDirtyParent m i (i :: (rest ++ kept))
    · rw [show scanRev m (i :: rest) kept = scanRev m rest (i :: kept) from by
        simp only [scanRev, if_pos hg]] at hsplit ⊢
      exact ih (i :: kept) b1 z b2 hsplit fp hfp
    · rw [show scanRev m (i :: rest) kept =
          ((i :: (scanRev m rest kept).1), (scanRev m rest kept).2) from by
        simp only [scanRev, if_neg hg]] at hsplit ⊢
      simp only at hsplit
      rcases b1 with _ | ⟨b1h, b1t⟩
      · simp only [List.nil_append] at hsplit
        injection hsplit with hz hb2
        subst hz
        rw [not_hasDirtyParent_iff] at hg
        have hnot := hg fp hfp
        obtain ⟨hsub1, hsub2⟩ := scanRev_subset m rest kept
        constructor
        · intro hmem
          rcases List.mem_cons.mp hmem with h | h
          · exact hnot (by rw [h]; exact List.mem_cons_self _ (rest ++ kept))
          · exact hnot (List.mem_cons_of_mem _
              (List.mem_append.mpr (Or.inl (hsub1 fp.2 (hb2 ▸ h)))))
        · intro hmem
          rcases hsub2 fp.2 hmem with h | h
          · exact hnot (List.mem_cons_of_mem _ (List.mem_append.mpr (Or.inl h)))
          · exact hnot (List.mem_cons_of_mem _ (List.mem_append.mpr (Or.inr h)))
      · injection hsplit with hh htl
        exact ih kept b1t z b2 htl fp hfp

/-- Progress: a dirty node none of whose parents is dirty is always
batched, so the scan of a non-empty dirty list containing such a node
produces a non-empty batch. -/
theorem scanRev_progress (m : ValueManager) :
    ∀ (te kept : List ℕ) (z : ℕ), z ∈ te →
      (∀ fp ∈ parasSteps m z, fp.2 ∉ te ∧ fp.2 ∉ kept) →
      (scanRev m te kept).1 ≠ [] := by
  intro te
  induction te with
  | nil => intro kept z hz; simp at hz
  | cons i rest ih =>
    intro kept z hz hpar
    by_cases hg : hasDirtyParent m i (i :: (rest ++ kept))
    · rw [show scanRev m (i :: rest) kept = scanRev m rest (i :: kept) from by
        simp only [scanRev, if_pos hg]]
      rcases List.mem_cons.mp hz with hzi | hzr
      · exfalso
        subst hzi
        obtain ⟨fp, hfp, hmem⟩ := hg
        rcases List.mem_cons.mp hmem with h | h
        · exact (hpar fp hfp).1 (by rw [h]; exact List.mem_cons_self z rest)
        · rcases List.mem_append.mp h with h | h
          · exact (hpar fp hfp).1 (List.mem_cons_of_mem z h)
          · exact (hpar fp hfp).2 h
      · refine ih (i :: kept) z hzr (fun fp hfp => ⟨?_, ?_⟩)
        · exact fun h => (hpar fp hfp).1 (List.mem_cons_of_mem i h)
        · intro h
          rcases List.mem_cons.mp h with h | h
          · exact (hpar fp hfp).1 (by rw [h]; exact List.mem_cons_self i rest)
          · exact (hpar fp hfp).2 h
    · rw [show scanRev m (i :: rest) kept =
          ((i :: (scanRev m rest kept).1), (scanRev m rest kept).2) from by
        simp only [scanRev, if_neg hg]]
      simp

/-! ### Recompute phase -/

/-- The fold reads only the lengths of the node list (for the parent
bound checks) and the parents' current values. -/
theorem foldF16_frame {m1 m2 : ValueManager}
    (hlen : m2.values.length = m1.values.length) :
    ∀ (steps : List (ℕ × ℕ)) (acc : F16),
      (∀ fp ∈ steps, valueAt m2 fp.2 = valueAt m1 fp.2) →
      foldF16 m2 steps acc = foldF16 m1 steps acc := by
  intro steps
  induction steps with
  | nil => intro acc _; rfl
  | cons fp rest ih =>
    intro acc hval
    obtain ⟨f, p⟩ := fp
    by_cases hf : 10 ≤ f
    · simp [foldF16, hf]
    · simp only [foldF16, if_neg hf]
      by_cases hp : p < m1.values.length
      · obtain ⟨nv1, hnv1⟩ : ∃ nv, m1.values[p]? = some nv := by
          rw [List.getElem?_eq_getElem hp]; exact ⟨_, rfl⟩
        obtain ⟨nv2, hnv2⟩ : ∃ nv, m2.values[p]? = some nv := by
          rw [List.getElem?_eq_getElem (hlen ▸ hp)]; exact ⟨_, rfl⟩
        have hv : nv2.2.value = nv1.2.value := by
          have := hval (f, p) (List.mem_cons_self _ rest)
          simpa [valueAt, getNode, hnv1, hnv2] using this
        rw [hnv1, hnv2]
        dsimp only
        rw [hv]
        cases applyFunc f acc nv1.2.value with
        | none => rfl
        | some acc' => exact ih acc' (fun q hq => hval q (List.mem_cons_of_mem _ hq))
      · rw [List.getElem?_eq_none (Nat.le_of_not_lt hp),
          List.getElem?_eq_none (hlen ▸ Nat.le_of_not_lt hp)]

/-- The recomputed value of a node depends only on the node's base and
operator list and its parents' current values. -/
theorem parasSteps_eq_of {m : ValueManager} {i : ℕ} {nv : String × Value}
    {pidx : ℕ} {steps : List (ℕ × ℕ)} (h1 : m.values[i]? = some nv)
    (h2 : nv.2.paras = some pidx) (h3 : m.paras[pidx]? = some steps) :
    parasSteps m i = steps := by
  simp [parasSteps, getNode, h1, h2, h3]

theorem nodeFoldE_frame {m1 m2 : ValueManager} {i : ℕ}
    (hlen : m2.values.length = m1.values.length)
    (hparas : m2.paras = m1.paras)
    (hnode : ∀ v1, getNode m1 i = some v1 → ∃ v2, getNode m2 i = some v2 ∧
      v2.base = v1.base ∧ v2.paras = v1.paras)
    (hval : ∀ fp ∈ parasSteps m1 i, valueAt m2 fp.2 = valueAt m1 fp.2) :
    nodeFoldE m2 i = nodeFoldE m1 i := by
  unfold nodeFoldE
  by_cases hi : i < m1.values.length
  · obtain ⟨nv1, hnv1⟩ : ∃ nv, m1.values[i]? = some nv := by
      rw [List.getElem?_eq_getElem hi]; exact ⟨_, rfl⟩
    obtain ⟨v2, hv2, hbase, hpar⟩ := hnode nv1.2 (by simp [getNode, hnv1])
    obtain ⟨nv2, hnv2, hnv2v⟩ : ∃ nv, m2.values[i]? = some nv ∧ nv.2 = v2 := by
      rw [getNode] at hv2
      rcases h2 : m2.values[i]? with _ | nv2
      · rw [h2] at hv2; simp at hv2
      · rw [h2] at hv2; simp at hv2; exact ⟨nv2, rfl, hv2⟩
    rw [hnv1, hnv2]
    dsimp only
    rw [hnv2v, hbase, hpar]
    cases hpp : nv1.2.paras with
    | none => rfl
    | some pidx =>
      dsimp only
      rw [hparas]
      cases hq : m1.paras[pidx]? with
      | none => rfl
      | some steps =>
        apply foldF16_frame hlen
        intro fp hfp
        apply hval
        rw [parasSteps_eq_of hnv1 hpp hq]
        exact hfp
  · rw [List.getElem?_eq_none (Nat.le_of_not_lt hi),
      List.getElem?_eq_none (hlen ▸ Nat.le_of_not_lt hi)]

theorem nodeFoldE_ok_lt {m : ValueManager} {i : ℕ} {x : F16}
    (h : nodeFoldE m i = .ok x) : i < m.values.length := by
  by_contra hn
  rw [nodeFoldE, List.getElem?_eq_none (Nat.le_of_not_lt hn)] at h
  exact Except.noConfusion h

theorem recomputeOne_ok {m m' : ValueManager} {i : ℕ}
    (h : recomputeOne m i = .ok m') :
    ∃ x, nodeFoldE m i = .ok x ∧ m' = setValueAt m i x := by
  rw [recomputeOne] at h
  cases hf : nodeFoldE m i with
  | error e => rw [hf] at h; exact Except.noConfusion h
  | ok x =>
    rw [hf] at h
    refine ⟨x, rfl, ?_⟩
    have h' : Except.ok (ε := UFail) (setValueAt m i x) = .ok m' := h
    cases h'
    rfl

/-- A successful batch recomputation touches only the value slots of the
batch members. -/
theorem recomputeBatch_frame :
    ∀ (batch : List ℕ) (m m' : ValueManager),
      recomputeBatch m batch = .ok m' →
      (∀ j, j ∉ batch → getNode m' j = getNode m j) ∧
      (∀ j, baseAt m' j = baseAt m j) ∧
      (∀ j, changeAt m' j = changeAt m j) ∧
      m'.values.length = m.values.length ∧
      m'.paras = m.paras ∧
      (∀ j, parasSteps m' j = parasSteps m j) := by
  intro batch
  induction batch with
  | nil =>
    intro m m' h
    rw [recomputeBatch] at h
    cases h
    exact ⟨fun j _ => rfl, fun j => rfl, fun j => rfl, rfl, rfl, fun j => rfl⟩
  | cons i rest ih =>
    intro m m' h
    rw [recomputeBatch] at h
    cases hone : recomputeOne m i with
    | error e => rw [hone] at h; exact Except.noConfusion h
    | ok m0 =>
      rw [hone] at h
      obtain ⟨x, hfold, hm0⟩ := recomputeOne_ok hone
      obtain ⟨f1, f2, f3, f4, f5, f6⟩ := ih m0 m' h
      subst hm0
      refine ⟨?_, ?_, ?_, ?_, ?_, ?_⟩
      · intro j hj
        rw [f1 j (fun hmem => hj (List.mem_cons_of_mem i hmem)),
          getNode_setValueAt_ne m x (fun hji => hj (by rw [hji]; exact List.mem_cons_self i rest))]
      · intro j; rw [f2 j, baseAt_setValueAt]
      · intro j; rw [f3 j, changeAt_setValueAt]
      · rw [f4, length_setValueAt]
      · rw [f5, paras_setValueAt]
      · intro j; rw [f6 j, parasSteps_setValueAt]

/-- Batch recomputation in removal order establishes consistency of the
batch members in the final state: each member is recomputed after all of
its in-batch parents and none of its parents is recomputed later. -/
theorem recomputeBatch_consistent :
    ∀ (batch : List ℕ) (m m' : ValueManager),
      batch.Nodup →
      (∀ b1 z b2, batch = b1 ++ z :: b2 → ∀ fp ∈ parasSteps m z, fp.2 ∉ z :: b2) →
      recomputeBatch m batch = .ok m' →
      ∀ z ∈ batch, consistentAt m' z := by
  intro batch
  induction batch with
  | nil => intro m m' _ _ _ z hz; simp at hz
  | cons i rest ih =>
    intro m m' hnd hord h z hz
    rw [recomputeBatch] at h
    cases hone : recomputeOne m i with
    | error e => rw [hone] at h; exact Except.noConfusion h
    | ok m0 =>
      rw [hone] at h
      obtain ⟨x, hfold, hm0⟩ := recomputeOne_ok hone
      have hi_lt : i < m.values.length := nodeFoldE_ok_lt hfold
      have hi_rest : i ∉ rest := (List.nodup_cons.mp hnd).1
      have hord_i : ∀ fp ∈ parasSteps m i, fp.2 ∉ i :: rest :=
        hord [] i rest rfl
      obtain ⟨f1, f2, f3, f4, f5, f6⟩ := recomputeBatch_frame rest m0 m' h
      rcases List.mem_cons.mp hz with hzi | hzr
      · subst hzi
        -- the value published for z stays in place ...
        have hval_final : valueAt m' z = x := by
          rw [valueAt, f1 z hi_rest, ← valueAt, hm0, valueAt_setValueAt_self x hi_lt]
        rw [consistentAt, hval_final]
        rw [show nodeFoldE m' z = nodeFoldE m z from ?_]
        · exact hfold
        · apply nodeFoldE_frame
          · rw [f4, hm0, length_setValueAt]
          · rw [f5, hm0, paras_setValueAt]
          · intro v1 hv1
            refine ⟨{ v1 with value := x }, ?_, rfl, rfl⟩
            rw [f1 z hi_rest, hm0]
            obtain ⟨v, hv, hv'⟩ := getNode_setValueAt_self x hi_lt
            rw [hv] at hv1
            cases hv1
            exact hv'
          · intro fp hfp
            have hfp_ni : fp.2 ∉ z :: rest := hord_i fp hfp
            rw [valueAt, f1 fp.2 (fun hmem => hfp_ni (List.mem_cons_of_mem z hmem)),
              ← valueAt, hm0,
              valueAt_setValueAt_ne m x (fun hji => hfp_ni (by rw [hji]; exact List.mem_cons_self z rest))]
      · -- z in the tail: apply the induction hypothesis at the state m0
        apply ih m0 m' (List.nodup_cons.mp hnd).2 ?_ h z hzr
        intro b1 w b2 hsplit fp hfp
        have : parasSteps m0 w = parasSteps m w := by
          rw [hm0, parasSteps_setValueAt]
        rw [this] at hfp
        exact fun hmem =>
          hord (i :: b1) w b2 (by rw [hsplit]; rfl) fp hfp hmem

/-! ### Outer recompute loop -/

theorem scanBatch_perm (m : ValueManager) (upd : List ℕ) :
    ((scanBatch m upd).1 ++ (scanBatch m upd).2).Perm upd := by
  rw [List.perm_iff_count]
  intro x
  rw [List.count_append, scanBatch, scanRev_count m upd.reverse [] x,
    List.count_reverse]
  simp

theorem scanBatch_order (m : ValueManager) (upd b1 : List ℕ) (z : ℕ) (b2 : List ℕ)
    (h : (scanBatch m upd).1 = b1 ++ z :: b2) :
    ∀ fp ∈ parasSteps m z, fp.2 ∉ z :: b2 ∧ fp.2 ∉ (scanBatch m upd).2 :=
  scanRev_order m upd.reverse [] b1 z b2 h

theorem scanBatch_progress (m : ValueManager) (upd : List ℕ) (z : ℕ)
    (hz : z ∈ upd) (hp : ∀ fp ∈ parasSteps m z, fp.2 ∉ upd) :
    (scanBatch m upd).1 ≠ [] := by
  apply scanRev_progress m upd.reverse [] z (List.mem_reverse.mpr hz)
  intro fp hfp
  exact ⟨fun h => hp fp hfp (List.mem_reverse.mp h), by simp⟩

theorem recomputeLoopF_nil (m : ValueManager) (tr : List ℕ) (fuel : ℕ) :
    recomputeLoopF m tr fuel [] = .ok (m, tr) := by
  cases fuel <;> rfl

/-- Full specification of a successful outer recompute loop on a
duplicate-free, child-closed dirty list over a state whose clean nodes
are consistent: afterwards every node is consistent, the recompute trace
extends by exactly the dirty nodes without duplicates, nodes outside the
dirty list are untouched, and no base, delta, or operator data changes
anywhere. -/
theorem recomputeLoopF_spec :
    ∀ (fuel : ℕ) (upd : List ℕ) (m : ValueManager) (tr : List ℕ)
      (m' : ValueManager) (tr' : List ℕ),
      upd.length ≤ fuel →
      upd.Nodup →
      (∀ c, c ∉ upd → ∀ fp ∈ parasSteps m c, fp.2 ∉ upd) →
      (∀ j, j < m.values.length → j ∉ upd → consistentAt m j) →
      recomputeLoopF m tr fuel upd = .ok (m', tr') →
      (∀ j, j < m.values.length → consistentAt m' j) ∧
      (∀ x, x ∈ tr' ↔ x ∈ tr ∨ x ∈ upd) ∧
      (tr.Nodup → (∀ x ∈ tr, x ∉ upd) → tr'.Nodup) ∧
      (∀ j, j ∉ upd → getNode m' j = getNode m j) ∧
      (∀ j, baseAt m' j = baseAt m j ∧ changeAt m' j = changeAt m j) ∧
      m'.values.length = m.values.length ∧
      m'.paras = m.paras ∧
      (∀ j, parasSteps m' j = parasSteps m j) := by
  intro fuel
  induction fuel with
  | zero =>
    intro upd m tr m' tr' hfuel hnd hclo hcons hok
    cases upd with
    | nil =>
      rw [recomputeLoopF_nil] at hok
      cases hok
      exact ⟨fun j hj => hcons j hj (by simp), by simp, fun h _ => h,
        fun j _ => rfl, fun j => ⟨rfl, rfl⟩, rfl, rfl, fun j => rfl⟩
    | cons u us => simp at hfuel
  | succ fuel ih =>
    intro upd m tr m' tr' hfuel hnd hclo hcons hok
    cases upd with
    | nil =>
      rw [recomputeLoopF_nil] at hok
      cases hok
      exact ⟨fun j hj => hcons j hj (by simp), by simp, fun h _ => h,
        fun j _ => rfl, fun j => ⟨rfl, rfl⟩, rfl, rfl, fun j => rfl⟩
    | cons u us =>
      have hstep : recomputeLoopF m tr (fuel + 1) (u :: us) =
          (if (scanBatch m (u :: us)).1.isEmpty then .error .cycle
           else match recomputeBatch m (scanBatch m (u :: us)).1 with
             | .error e => .error e
             | .ok m1 => recomputeLoopF m1 (tr ++ (scanBatch m (u :: us)).1)
                 fuel (scanBatch m (u :: us)).2) := rfl
      rw [hstep] at hok
      by_cases hbe : (scanBatch m (u :: us)).1.isEmpty
      · rw [if_pos hbe] at hok; exact Except.noConfusion hok
      rw [if_neg hbe] at hok
      cases hrb : recomputeBatch m (scanBatch m (u :: us)).1 with
      | error e => rw [hrb] at hok; exact Except.noConfusion hok
      | ok m1 =>
        rw [hrb] at hok
        set b := (scanBatch m (u :: us)).1 with hbdef
        set k := (scanBatch m (u :: us)).2 with hkdef
        have hperm : (b ++ k).Perm (u :: us) := scanBatch_perm m (u :: us)
        have hmem : ∀ x, x ∈ b ∨ x ∈ k ↔ x ∈ u :: us := by
          intro x
          rw [← List.mem_append]
          exact hperm.mem_iff
        have hndbk : (b ++ k).Nodup := hperm.nodup_iff.mpr hnd
        obtain ⟨hndb, hndk, hdisj⟩ := List.nodup_append.mp hndbk
        have hblen : b.length + k.length = (u :: us).length := by
          have := hperm.length_eq
          simpa using this
        have hbne : b ≠ [] := fun h => hbe (by rw [h]; rfl)
        have hkfuel : k.length ≤ fuel := by
          have : 1 ≤ b.length := by
            cases hb : b with
            | nil => exact absurd hb hbne
            | cons bh bt => simp
          simp only [List.length_cons] at hblen hfuel
          omega
        obtain ⟨g1, g2, g3, g4, g5, g6⟩ := recomputeBatch_frame b m m1 hrb
        have hordb : ∀ b1 z b2, b = b1 ++ z :: b2 →
            ∀ fp ∈ parasSteps m z, fp.2 ∉ z :: b2 :=
          fun b1 z b2 hs fp hfp => (scanBatch_order m (u :: us) b1 z b2 hs fp hfp).1
        have hconsb : ∀ z ∈ b, consistentAt m1 z :=
          recomputeBatch_consistent b m m1 hndb hordb hrb
        -- hypotheses for the recursive call
        have hclo' : ∀ c, c ∉ k → ∀ fp ∈ parasSteps m1 c, fp.2 ∉ k := by
          intro c hc fp hfp
          rw [g6] at hfp
          by_cases hcu : c ∈ u :: us
          · have hcb : c ∈ b := by
              rcases (hmem c).mpr hcu with h | h
              · exact h
              · exact absurd h hc
            obtain ⟨s, t, hst⟩ := List.append_of_mem hcb
            exact (scanBatch_order m (u :: us) s c t hst fp hfp).2
          · intro hk
            exact hclo c hcu fp hfp ((hmem fp.2).mp (Or.inr hk))
        have hcons' : ∀ j, j < m1.values.length → j ∉ k → consistentAt m1 j := by
          intro j hj hjk
          by_cases hjb : j ∈ b
          · exact hconsb j hjb
          · have hju : j ∉ u :: us := fun hmemu => by
              rcases (hmem j).mpr hmemu with h | h
              · exact hjb h
              · exact hjk h
            have hcj : consistentAt m j := hcons j (by rw [← g4]; exact hj) hju
            rw [consistentAt] at hcj ⊢
            have hfe : nodeFoldE m1 j = nodeFoldE m j := by
              apply nodeFoldE_frame g4 g5
              · intro v1 hv1
                exact ⟨v1, by rw [g1 j hjb]; exact hv1, rfl, rfl⟩
              · intro fp hfp
                have hfpu : fp.2 ∉ u :: us := hclo j hju fp hfp
                have hfpb : fp.2 ∉ b := fun h => hfpu ((hmem fp.2).mp (Or.inl h))
                rw [valueAt, g1 fp.2 hfpb, valueAt]
            have hve : valueAt m1 j = valueAt m j := by
              rw [valueAt, g1 j hjb, valueAt]
            rw [hfe, hve]
            exact hcj
        obtain ⟨c1, c2, c3, c4, c5, c6, c7, c8⟩ :=
          ih k m1 (tr ++ b) m' tr' hkfuel hndk hclo' hcons' hok
        have hkub : ∀ x ∈ k, x ∈ u :: us := fun x hx => (hmem x).mp (Or.inr hx)
        have hbub : ∀ x ∈ b, x ∈ u :: us := fun x hx => (hmem x).mp (Or.inl hx)
        refine ⟨?_, ?_, ?_, ?_, ?_, ?_, ?_, ?_⟩
        · intro j hj
          exact c1 j (by rw [g4]; exact hj)
        · intro x
          rw [c2 x, List.mem_append]
          constructor
          · rintro ((h | h) | h)
            · exact Or.inl h
            · exact Or.inr ((hmem x).mp (Or.inl h))
            · exact Or.inr ((hmem x).mp (Or.inr h))
          · rintro (h | h)
            · exact Or.inl (Or.inl h)
            · rcases (hmem x).mpr h with h | h
              · exact Or.inl (Or.inr h)
              · exact Or.inr h
        · intro hndtr hdisjtr
          apply c3
          · rw [List.nodup_append]
            exact ⟨hndtr, hndb, fun x hx hxb => hdisjtr x hx (hbub x hxb)⟩
          · intro x hx
            rcases List.mem_append.mp hx with h | h
            · exact fun hk => hdisjtr x h (hkub x hk)
            · exact fun hk => hdisj h hk
        · intro j hj
          have hjb : j ∉ b := fun h => hj (hbub j h)
          have hjk : j ∉ k := fun h => hj (hkub j h)
          rw [c4 j hjk, g1 j hjb]
        · intro j
          obtain ⟨h1, h2⟩ := c5 j
          exact ⟨by rw [h1, g2 j], by rw [h2, g3 j]⟩
        · rw [c6, g4]
        · rw [c7, g5]
        · intro j; rw [c8 j, g6 j]

/-- Frame part of the outer recompute loop, needing no consistency
hypothesis: a successful run touches only dirty nodes, recomputes
exactly them, and preserves all structure. -/
theorem recomputeLoopF_frame :
    ∀ (fuel : ℕ) (upd : List ℕ) (m : ValueManager) (tr : List ℕ)
      (m' : ValueManager) (tr' : List ℕ),
      upd.Nodup →
      recomputeLoopF m tr fuel upd = .ok (m', tr') →
      (∀ x, x ∈ tr' ↔ x ∈ tr ∨ x ∈ upd) ∧
      (tr.Nodup → (∀ x ∈ tr, x ∉ upd) → tr'.Nodup) ∧
      (∀ j, j ∉ upd → getNode m' j = getNode m j) ∧
      (∀ j, baseAt m' j = baseAt m j ∧ changeAt m' j = changeAt m j) ∧
      m'.values.length = m.values.length ∧
      m'.paras = m.paras ∧
      (∀ j, parasSteps m' j = parasSteps m j) := by
  intro fuel
  induction fuel with
  | zero =>
    intro upd m tr m' tr' hnd hok
    cases upd with
    | nil =>
      rw [recomputeLoopF_nil] at hok
      cases hok
      exact ⟨by simp, fun h _ => h, fun j _ => rfl, fun j => ⟨rfl, rfl⟩,
        rfl, rfl, fun j => rfl⟩
    | cons u us => exact Except.noConfusion hok
  | succ fuel ih =>
    intro upd m tr m' tr' hnd hok
    cases upd with
    | nil =>
      rw [recomputeLoopF_nil] at hok
      cases hok
      exact ⟨by simp, fun h _ => h, fun j _ => rfl, fun j => ⟨rfl, rfl⟩,
        rfl, rfl, fun j => rfl⟩
    | cons u us =>
      have hstep : recomputeLoopF m tr (fuel + 1) (u :: us) =
          (if (scanBatch m (u :: us)).1.isEmpty then .error .cycle
           else match recomputeBatch m (scanBatch m (u :: us)).1 with
             | .error e => .error e
             | .ok m1 => recomputeLoopF m1 (tr ++ (scanBatch m (u :: us)).1)
                 fuel (scanBatch m (u :: us)).2) := rfl
      rw [hstep] at hok
      by_cases hbe : (scanBatch m (u :: us)).1.isEmpty
      · rw [if_pos hbe] at hok; exact Except.noConfusion hok
      rw [if_neg hbe] at hok
      cases hrb : recomputeBatch m (scanBatch m (u :: us)).1 with
      | error e => rw [hrb] at hok; exact Except.noConfusion hok
      | ok m1 =>
        rw [hrb] at hok
        set b := (scanBatch m (u :: us)).1 with hbdef
        set k := (scanBatch m (u :: us)).2 with hkdef
        have hperm : (b ++ k).Perm (u :: us) := scanBatch_perm m (u :: us)
        have hmem : ∀ x, x ∈ b ∨ x ∈ k ↔ x ∈ u :: us := by
          intro x
          rw [← List.mem_append]
          exact hperm.mem_iff
        have hndbk : (b ++ k).Nodup := hperm.nodup_iff.mpr hnd
        obtain ⟨hndb, hndk, hdisj⟩ := List.nodup_append.mp hndbk
        obtain ⟨g1, g2, g3, g4, g5, g6⟩ := recomputeBatch_frame b m m1 hrb
        obtain ⟨c2, c3, c4, c5, c6, c7, c8⟩ :=
          ih k m1 (tr ++ b) m' tr' hndk hok
        have hkub : ∀ x ∈ k, x ∈ u :: us := fun x hx => (hmem x).mp (Or.inr hx)
        have hbub : ∀ x ∈ b, x ∈ u :: us := fun x hx => (hmem x).mp (Or.inl hx)
        refine ⟨?_, ?_, ?_, ?_, ?_, ?_, ?_⟩
        · intro x
          rw [c2 x, List.mem_append]
          constructor
          · rintro ((h | h) | h)
            · exact Or.inl h
            · exact Or.inr ((hmem x).mp (Or.inl h))
            · exact Or.inr ((hmem x).mp (Or.inr h))
          · rintro (h | h)
            · exact Or.inl (Or.inl h)
            · rcases (hmem x).mpr h with h | h
              · exact Or.inl (Or.inr h)
              · exact Or.inr h
        · intro hndtr hdisjtr
          apply c3
          · rw [List.nodup_append]
            exact ⟨hndtr, hndb, fun x hx hxb => hdisjtr x hx (hbub x hxb)⟩
          · intro x hx
            rcases List.mem_append.mp hx with h | h
            · exact fun hk => hdisjtr x h (hkub x hk)
            · exact fun hk => hdisj h hk
        · intro j hj
          have hjb : j ∉ b := fun h => hj (hbub j h)
          have hjk : j ∉ k := fun h => hj (hkub j h)
          rw [c4 j hjk, g1 j hjb]
        · intro j
          obtain ⟨h1, h2⟩ := c5 j
          exact ⟨by rw [h1, g2 j], by rw [h2, g3 j]⟩
        · rw [c6, g4]
        · rw [c7, g5]
        · intro j; rw [c8 j, g6 j]

/-! ### Commit and update-level specifications -/

theorem parasSteps_oob {m : ValueManager} {c : ℕ}
    (h : m.values.length ≤ c) : parasSteps m c = [] := by
  rw [parasSteps, getNode, List.getElem?_eq_none h]
  rfl

theorem commit_spec (m : ValueManager) :
    (commit m).2 = (List.range m.values.length).filter
        (fun i => decide (changeAt m i ≠ F16.fin 0)) ∧
    (∀ j, changeAt m j = F16.fin 0 → getNode (commit m).1 j = getNode m j) ∧
    (∀ j, changeAt m j ≠ F16.fin 0 →
        baseAt (commit m).1 j = fADD (baseAt m j) (changeAt m j) ∧
        changeAt (commit m).1 j = F16.fin 0) ∧
    (commit m).1.values.length = m.values.length ∧
    (commit m).1.paras = m.paras ∧
    (∀ j, parasSteps (commit m).1 j = parasSteps m j) ∧
    (∀ j, valueAt (commit m).1 j = valueAt m j) := by
  obtain ⟨h1, h2, h3, h4, h5, h6, h7, h8⟩ :=
    commitLoop_spec (List.range m.values.length) m [] (List.nodup_range _)
  rw [commit]
  refine ⟨by rw [h1]; simp, h3, ?_, h5, h6, h7, h8⟩
  intro j hj
  exact h4 j (List.mem_range.mpr (lt_of_changeAt_ne hj)) hj

/-- Membership in the committed dirty list. -/
theorem commit_dirty_mem (m : ValueManager) (x : ℕ) :
    x ∈ (commit m).2 ↔ x < m.values.length ∧ changeAt m x ≠ F16.fin 0 := by
  rw [(commit_spec m).1, List.mem_filter, List.mem_range]
  simp

theorem commit_dirty_nodup (m : ValueManager) : (commit m).2.Nodup := by
  rw [(commit_spec m).1]
  exact (List.nodup_range _).filter _

theorem isParent_congr {m1 m2 : ValueManager}
    (h : ∀ j, parasSteps m2 j = parasSteps m1 j) (p c : ℕ) :
    isParent m2 p c ↔ isParent m1 p c := by
  rw [isParent, isParent, h c]

theorem reaches_congr {m1 m2 : ValueManager}
    (h : ∀ j, parasSteps m2 j = parasSteps m1 j) (i x : ℕ) :
    Reaches m2 i x ↔ Reaches m1 i x := by
  constructor <;> intro hr
  · induction hr with
    | refl => exact .refl
    | step _ hp ih => exact .step ih ((isParent_congr h _ _).mp hp)
  · induction hr with
    | refl => exact .refl
    | step _ hp ih => exact .step ih ((isParent_congr h _ _).mpr hp)

theorem restCount_le (n : ℕ) (u : List ℕ) : restCount n u ≤ n := by
  calc ((Finset.range n).filter (fun x => x ∉ u)).card
      ≤ (Finset.range n).card := Finset.card_filter_le _ _
    _ = n := Finset.card_range n

/-- Properties of the expanded dirty list produced inside `update()`:
it extends the committed dirty list, is closed under the child
relation, consists exactly of the nodes reachable from committed dirty
nodes, and is duplicate-free. -/
theorem expand_commit_spec (m : ValueManager) :
    (∃ adds, expandF (commit m).1
        (2 * (commit m).1.values.length + (commit m).2.length)
        (commit m).2 (commit m).2 = (commit m).2 ++ adds) ∧
    (∀ j ∈ expandF (commit m).1
        (2 * (commit m).1.values.length + (commit m).2.length)
        (commit m).2 (commit m).2, ∀ c, isParent (commit m).1 j c →
      c ∈ expandF (commit m).1
        (2 * (commit m).1.values.length + (commit m).2.length)
        (commit m).2 (commit m).2) ∧
    (∀ x ∈ expandF (commit m).1
        (2 * (commit m).1.values.length + (commit m).2.length)
        (commit m).2 (commit m).2, ∃ j ∈ (commit m).2, Reaches (commit m).1 j x) ∧
    ((commit m).2.Nodup → (expandF (commit m).1
        (2 * (commit m).1.values.length + (commit m).2.length)
        (commit m).2 (commit m).2).Nodup) := by
  apply expandF_spec
  · exact fun x hx => hx
  · exact fun j hj hnj => absurd hj hnj
  · have := restCount_le (commit m).1.values.length (commit m).2
    omega

/-- Master specification of a successful `update()` run, without any
consistency hypothesis: the recompute trace is exactly the set of nodes
reachable from a node with a pending delta, it has no duplicates (each
node is recomputed at most once), untraced nodes are untouched, every
pending delta is folded into its base exactly once and zeroed, and the
graph structure is preserved. -/
theorem runUpdate_ok_spec {m m' : ValueManager} {tr : List ℕ}
    (hok : runUpdate m = .ok (m', tr)) :
    (∀ x, x ∈ tr ↔ ∃ j, (j < m.values.length ∧ changeAt m j ≠ F16.fin 0) ∧
        Reaches m j x) ∧
    tr.Nodup ∧
    (∀ j, j ∉ tr → getNode m' j = getNode m j) ∧
    (∀ j, changeAt m j ≠ F16.fin 0 →
        baseAt m' j = fADD (baseAt m j) (changeAt m j) ∧
        changeAt m' j = F16.fin 0) ∧
    (∀ j, changeAt m j = F16.fin 0 →
        baseAt m' j = baseAt m j ∧ changeAt m' j = changeAt m j) ∧
    m'.values.length = m.values.length ∧
    m'.paras = m.paras ∧
    (∀ j, parasSteps m' j = parasSteps m j) := by
  obtain ⟨cm1, cm2, cm3, cm4, cm5, cm6, cm7⟩ := commit_spec m
  obtain ⟨⟨adds, hadds⟩, hclosed, hmin, hnodup⟩ := expand_commit_spec m
  have hEnodup : (expandF (commit m).1
      (2 * (commit m).1.values.length + (commit m).2.length)
      (commit m).2 (commit m).2).Nodup := hnodup (commit_dirty_nodup m)
  have hok' : recomputeLoopF (commit m).1 []
      (expandF (commit m).1
        (2 * (commit m).1.values.length + (commit m).2.length)
        (commit m).2 (commit m).2).length
      (expandF (commit m).1
        (2 * (commit m).1.values.length + (commit m).2.length)
        (commit m).2 (commit m).2) = .ok (m', tr) := hok
  obtain ⟨f_tr, f_nd, f_frame, f_bc, f_len, f_paras, f_ps⟩ :=
    recomputeLoopF_frame _ _ _ _ _ _ hEnodup hok'
  set E := expandF (commit m).1
      (2 * (commit m).1.values.length + (commit m).2.length)
      (commit m).2 (commit m).2 with hEdef
  have htrE : ∀ x, x ∈ tr ↔ x ∈ E := by
    intro x
    rw [f_tr x]
    simp
  have hdE : ∀ x ∈ (commit m).2, x ∈ E := by
    intro x hx
    rw [hadds]
    exact List.mem_append_left adds hx
  refine ⟨?_, ?_, ?_, ?_, ?_, ?_, ?_, ?_⟩
  · intro x
    rw [htrE x]
    constructor
    · intro hx
      obtain ⟨j, hj, hr⟩ := hmin x hx
      exact ⟨j, (commit_dirty_mem m j).mp hj, (reaches_congr cm6 j x).mp hr⟩
    · rintro ⟨j, hjd, hr⟩
      have hjE : j ∈ E := hdE j ((commit_dirty_mem m j).mpr hjd)
      have : ∀ y, Reaches m j y → y ∈ E := by
        intro y hy
        induction hy with
        | refl => exact hjE
        | step _ hp ih => exact hclosed _ ih _ ((isParent_congr cm6 _ _).mpr hp)
      exact this x hr
  · exact f_nd List.nodup_nil (by simp)
  · intro j hj
    have hjE : j ∉ E := fun h => hj ((htrE j).mpr h)
    rw [f_frame j hjE]
    have hjd : j ∉ (commit m).2 := fun h => hjE (hdE j h)
    by_cases hc : changeAt m j = F16.fin 0
    · exact cm2 j hc
    · exact absurd ((commit_dirty_mem m j).mpr ⟨lt_of_changeAt_ne hc, hc⟩) hjd
  · intro j hc
    obtain ⟨h1, h2⟩ := f_bc j
    obtain ⟨h3, h4⟩ := cm3 j hc
    exact ⟨by rw [h1, h3], by rw [h2, h4]⟩
  · intro j hc
    obtain ⟨h1, h2⟩ := f_bc j
    have hg := cm2 j hc
    constructor
    · rw [h1, baseAt, hg, baseAt]
    · rw [h2, changeAt, hg, changeAt]
  · rw [f_len, cm4]
  · rw [f_paras, cm5]
  · intro j; rw [f_ps j, cm6 j]

/-- Consistency part: if every node satisfied its fold equation before
the call, then after a successful `update()` every node satisfies it
against the post-update state. -/
theorem runUpdate_consistent {m m' : ValueManager} {tr : List ℕ}
    (hpre : ∀ j, j < m.values.length → consistentAt m j)
    (hok : runUpdate m = .ok (m', tr)) :
    ∀ j, j < m.values.length → consistentAt m' j := by
  obtain ⟨cm1, cm2, cm3, cm4, cm5, cm6, cm7⟩ := commit_spec m
  obtain ⟨⟨adds, hadds⟩, hclosed, hmin, hnodup⟩ := expand_commit_spec m
  have hEnodup : (expandF (commit m).1
      (2 * (commit m).1.values.length + (commit m).2.length)
      (commit m).2 (commit m).2).Nodup := hnodup (commit_dirty_nodup m)
  have hok' : recomputeLoopF (commit m).1 []
      (expandF (commit m).1
        (2 * (commit m).1.values.length + (commit m).2.length)
        (commit m).2 (commit m).2).length
      (expandF (commit m).1
        (2 * (commit m).1.values.length + (commit m).2.length)
        (commit m).2 (commit m).2) = .ok (m', tr) := hok
  set E := expandF (commit m).1
      (2 * (commit m).1.values.length + (commit m).2.length)
      (commit m).2 (commit m).2 with hEdef
  have hdE : ∀ x ∈ (commit m).2, x ∈ E := by
    intro x hx
    rw [hadds]
    exact List.mem_append_left adds hx
  have hclo : ∀ c, c ∉ E → ∀ fp ∈ parasSteps (commit m).1 c, fp.2 ∉ E := by
    intro c hc fp hfp hfpE
    exact hc (hclosed fp.2 hfpE c ⟨fp, hfp, rfl⟩)
  have hcons : ∀ j, j < (commit m).1.values.length → j ∉ E → consistentAt (commit m).1 j := by
    intro j hj hjE
    have hjd : j ∉ (commit m).2 := fun h => hjE (hdE j h)
    have hc0 : changeAt m j = F16.fin 0 := by
      by_contra hc
      exact hjd ((commit_dirty_mem m j).mpr ⟨lt_of_changeAt_ne hc, hc⟩)
    have hg := cm2 j hc0
    have hpj : consistentAt m j := hpre j (by rw [← cm4]; exact hj)
    rw [consistentAt] at hpj ⊢
    have hfe : nodeFoldE (commit m).1 j = nodeFoldE m j := by
      apply nodeFoldE_frame cm4 cm5
      · intro v1 hv1
        exact ⟨v1, by rw [hg]; exact hv1, rfl, rfl⟩
      · exact fun fp _ => cm7 fp.2
    have hve : valueAt (commit m).1 j = valueAt m j := by
      rw [valueAt, hg, ← valueAt]
    rw [hfe, hve]
    exact hpj
  obtain ⟨c1, _, _, _, _, _, _, _⟩ :=
    recomputeLoopF_spec E.length E (commit m).1 [] m' tr (Nat.le_refl _)
      hEnodup hclo hcons hok'
  intro j hj
  exact c1 j (by rw [cm4]; exact hj)

/-! ### Termination of the recompute pass on acyclic graphs -/

theorem list_exists_min_image (l : List ℕ) (f : ℕ → ℕ) (h : l ≠ []) :
    ∃ z ∈ l, ∀ y ∈ l, f z ≤ f y := by
  induction l with
  | nil => exact absurd rfl h
  | cons a t ih =>
    cases t with
    | nil => exact ⟨a, by simp, by simp⟩
    | cons b t' =>
      obtain ⟨z, hz, hmin⟩ := ih (by simp)
      by_cases hle : f a ≤ f z
      · refine ⟨a, List.mem_cons_self a _, fun y hy => ?_⟩
        rcases List.mem_cons.mp hy with h | h
        · rw [h]
        · exact le_trans hle (hmin y h)
      · refine ⟨z, List.mem_cons_of_mem a hz, fun y hy => ?_⟩
        rcases List.mem_cons.mp hy with h | h
        · rw [h]; omega
        · exact hmin y h

theorem foldF16_ne_cycle :
    ∀ (steps : List (ℕ × ℕ)) (m : ValueManager) (acc : F16),
      foldF16 m steps acc ≠ .error .cycle := by
  intro steps
  induction steps with
  | nil => intro m acc h; exact Except.noConfusion h
  | cons fp rest ih =>
    intro m acc h
    obtain ⟨f, p⟩ := fp
    rw [foldF16] at h
    by_cases hf : 10 ≤ f
    · rw [if_pos hf] at h
      exact UFail.noConfusion (Except.error.inj h)
    rw [if_neg hf] at h
    cases hp : m.values[p]? with
    | none =>
      rw [hp] at h
      exact UFail.noConfusion (Except.error.inj h)
    | some pv =>
      rw [hp] at h
      dsimp only at h
      cases ha : applyFunc f acc pv.2.value with
      | none =>
        rw [ha] at h
        exact UFail.noConfusion (Except.error.inj h)
      | some acc' =>
        rw [ha] at h
        exact ih m acc' h

theorem nodeFoldE_ne_cycle (m : ValueManager) (i : ℕ) :
    nodeFoldE m i ≠ .error .cycle := by
  intro h
  rw [nodeFoldE] at h
  cases hv : m.values[i]? with
  | none => rw [hv] at h; exact UFail.noConfusion (Except.error.inj h)
  | some nv =>
    rw [hv] at h
    dsimp only at h
    cases hpp : nv.2.paras with
    | none => rw [hpp] at h; exact Except.noConfusion h
    | some pidx =>
      rw [hpp] at h
      dsimp only at h
      cases hq : m.paras[pidx]? with
      | none => rw [hq] at h; exact UFail.noConfusion (Except.error.inj h)
      | some steps =>
        rw [hq] at h
        exact foldF16_ne_cycle steps m nv.2.base h

theorem recomputeBatch_ne_cycle :
    ∀ (batch : List ℕ) (m : ValueManager),
      recomputeBatch m batch ≠ .error .cycle := by
  intro batch
  induction batch with
  | nil => intro m h; exact Except.noConfusion h
  | cons i rest ih =>
    intro m h
    rw [recomputeBatch] at h
    cases hone : recomputeOne m i with
    | error e =>
      rw [hone] at h
      have he : e = .cycle := (Except.error.inj h)
      subst he
      rw [recomputeOne] at hone
      cases hf : nodeFoldE m i with
      | error e' =>
        rw [hf] at hone
        have : e' = .cycle := by
          have h' : Except.error (α := ValueManager) e' = .error UFail.cycle := hone
          exact Except.error.inj h'
        exact nodeFoldE_ne_cycle m i (this ▸ hf)
      | ok x => rw [hf] at hone; exact Except.noConfusion hone
    | ok m0 =>
      rw [hone] at h
      exact ih m0 h

/-- On a ranked (acyclic) graph the outer recompute loop can never
report the empty-batch divergence: the dirty list always contains a
node of minimal rank, whose parents are all clean. -/
theorem recomputeLoopF_ne_cycle :
    ∀ (fuel : ℕ) (upd : List ℕ) (m : ValueManager) (tr : List ℕ)
      (rank : ℕ → ℕ),
      (∀ c, ∀ fp ∈ parasSteps m c, rank fp.2 < rank c) →
      upd.length ≤ fuel →
      recomputeLoopF m tr fuel upd ≠ .error .cycle := by
  intro fuel
  induction fuel with
  | zero =>
    intro upd m tr rank hrank hfuel
    cases upd with
    | nil => rw [recomputeLoopF_nil]; exact fun h => Except.noConfusion h
    | cons u us => simp at hfuel
  | succ fuel ih =>
    intro upd m tr rank hrank hfuel
    cases upd with
    | nil => rw [recomputeLoopF_nil]; exact fun h => Except.noConfusion h
    | cons u us =>
      obtain ⟨z, hz, hminz⟩ := list_exists_min_image (u :: us) rank (by simp)
      have hb : (scanBatch m (u :: us)).1 ≠ [] := by
        apply scanBatch_progress m (u :: us) z hz
        intro fp hfp hmem
        exact absurd (hminz fp.2 hmem) (by have := hrank z fp hfp; omega)
      have hstep : recomputeLoopF m tr (fuel + 1) (u :: us) =
          (if (scanBatch m (u :: us)).1.isEmpty then .error .cycle
           else match recomputeBatch m (scanBatch m (u :: us)).1 with
             | .error e => .error e
             | .ok m1 => recomputeLoopF m1 (tr ++ (scanBatch m (u :: us)).1)
                 fuel (scanBatch m (u :: us)).2) := rfl
      rw [hstep, if_neg (fun hbe => hb (List.isEmpty_iff.mp hbe))]
      cases hrb : recomputeBatch m (scanBatch m (u :: us)).1 with
      | error e =>
        intro h
        have he : e = .cycle := Except.error.inj h
        subst he
        exact recomputeBatch_ne_cycle _ m hrb
      | ok m1 =>
        obtain ⟨g1, g2, g3, g4, g5, g6⟩ :=
          recomputeBatch_frame (scanBatch m (u :: us)).1 m m1 hrb
        apply ih _ m1 _ rank
        · intro c fp hfp
          rw [g6 c] at hfp
          exact hrank c fp hfp
        · have hperm := scanBatch_perm m (u :: us)
          have hlen := hperm.length_eq
          simp only [List.length_append] at hlen
          have h1 : 1 ≤ (scanBatch m (u :: us)).1.length := by
            cases hx : (scanBatch m (u :: us)).1 with
            | nil => exact absurd hx hb
            | cons xh xt => simp
          simp only [List.length_cons] at hfuel hlen
          omega

/-- The recompute pass of `update()` never hangs on an acyclic graph. -/
theorem runUpdate_ne_cycle {m : ValueManager} (hac : Acyclic m) :
    runUpdate m ≠ .error .cycle := by
  obtain ⟨rank, hrank⟩ := hac
  have hps := (commit_spec m).2.2.2.2.2.1
  exact recomputeLoopF_ne_cycle _ _ (commit m).1 [] rank
    (fun c fp hfp => hrank c fp (by rw [← hps c]; exact hfp))
    (Nat.le_refl _)

/-! ### Panic analysis of the operator fold -/

theorem applyFunc_max_none_iff (x y : F16) :
    applyFunc 1 x y = none ↔ x = .nan ∨ y = .nan := by
  cases x <;> cases y <;> simp [applyFunc, fMAX, cmpF16]

theorem applyFunc_min_none_iff (x y : F16) :
    applyFunc 2 x y = none ↔ x = .nan ∨ y = .nan := by
  cases x <;> cases y <;> simp [applyFunc, fMIN, cmpF16]

theorem applyFunc_total (f : ℕ) (h10 : f < 10) (h1 : f ≠ 1) (h2 : f ≠ 2)
    (x y : F16) : ∃ r, applyFunc f x y = some r := by
  interval_cases f
  · exact ⟨_, rfl⟩
  · exact absurd rfl h1
  · exact absurd rfl h2
  · exact ⟨_, rfl⟩
  · exact ⟨_, rfl⟩
  · exact ⟨_, rfl⟩
  · exact ⟨_, rfl⟩
  · exact ⟨_, rfl⟩
  · exact ⟨_, rfl⟩
  · exact ⟨_, rfl⟩

/-- Panic decomposition of the fold: an `unwrap` panic happens exactly
at a `MAX`/`MIN` step one of whose operands — accumulated value or
parent value — is NaN, the earlier steps having folded normally. -/
theorem foldF16_panic :
    ∀ (steps : List (ℕ × ℕ)) (m : ValueManager) (acc : F16),
      foldF16 m steps acc = .error .panicked →
      ∃ pre f p suf acc', steps = pre ++ (f, p) :: suf ∧
        foldF16 m pre acc = .ok acc' ∧ (f = 1 ∨ f = 2) ∧
        (acc' = .nan ∨ valueAt m p = .nan) := by
  intro steps
  induction steps with
  | nil => intro m acc h; exact Except.noConfusion h
  | cons fp rest ih =>
    intro m acc h
    obtain ⟨f, p⟩ := fp
    rw [foldF16] at h
    by_cases hf : 10 ≤ f
    · rw [if_pos hf] at h
      exact absurd (Except.error.inj h) (by intro hx; exact UFail.noConfusion hx)
    rw [if_neg hf] at h
    cases hp : m.values[p]? with
    | none =>
      rw [hp] at h
      exact absurd (Except.error.inj h) (by intro hx; exact UFail.noConfusion hx)
    | some pv =>
      rw [hp] at h
      dsimp only at h
      cases ha : applyFunc f acc pv.2.value with
      | none =>
        have hf12 : f = 1 ∨ f = 2 := by
          by_contra hc
          push_neg at hc
          obtain ⟨r, hr⟩ := applyFunc_total f (Nat.lt_of_not_le hf) hc.1 hc.2 acc pv.2.value
          rw [hr] at ha
          exact Option.noConfusion ha
        have hnan : acc = .nan ∨ pv.2.value = .nan := by
          rcases hf12 with h1 | h2
          · subst h1; exact (applyFunc_max_none_iff acc pv.2.value).mp ha
          · subst h2; exact (applyFunc_min_none_iff acc pv.2.value).mp ha
        refine ⟨[], f, p, rest, acc, by simp, rfl, hf12, ?_⟩
        rcases hnan with h1 | h2
        · exact Or.inl h1
        · refine Or.inr ?_
          rw [valueAt, getNode, hp]
          simpa using h2
      | some acc0 =>
        rw [ha] at h
        obtain ⟨pre, f', p', suf, acc', hsplit, hpre, hf12, hnan⟩ := ih m acc0 h
        refine ⟨(f, p) :: pre, f', p', suf, acc', by rw [hsplit]; rfl, ?_, hf12, hnan⟩
        rw [foldF16, if_neg hf, hp]
        dsimp only
        rw [ha]
        exact hpre

/-- Panic decomposition of one node recomputation. -/
theorem nodeFoldE_panic {m : ValueManager} {i : ℕ}
    (h : nodeFoldE m i = .error .panicked) :
    ∃ pre f p suf acc', parasSteps m i = pre ++ (f, p) :: suf ∧
      foldF16 m pre (baseAt m i) = .ok acc' ∧ (f = 1 ∨ f = 2) ∧
      (acc' = .nan ∨ valueAt m p = .nan) := by
  rw [nodeFoldE] at h
  cases hv : m.values[i]? with
  | none =>
    rw [hv] at h
    exact absurd (Except.error.inj h) (by intro hx; exact UFail.noConfusion hx)
  | some nv =>
    rw [hv] at h
    dsimp only at h
    cases hpp : nv.2.paras with
    | none => rw [hpp] at h; exact Except.noConfusion h
    | some pidx =>
      rw [hpp] at h
      dsimp only at h
      cases hq : m.paras[pidx]? with
      | none =>
        rw [hq] at h
        exact absurd (Except.error.inj h) (by intro hx; exact UFail.noConfusion hx)
      | some steps =>
        rw [hq] at h
        obtain ⟨pre, f, p, suf, acc', hsplit, hpre, hf12, hnan⟩ :=
          foldF16_panic steps m nv.2.base h
        have hbase : baseAt m i = nv.2.base := by
          simp [baseAt, getNode, hv]
        exact ⟨pre, f, p, suf, acc',
          by rw [parasSteps_eq_of hv hpp hq]; exact hsplit,
          by rw [hbase]; exact hpre, hf12, hnan⟩

theorem recomputeBatch_panic :
    ∀ (batch : List ℕ) (m : ValueManager),
      recomputeBatch m batch = .error .panicked →
      ∃ ms i, (∀ j, parasSteps ms j = parasSteps m j) ∧
        ms.values.length = m.values.length ∧
        nodeFoldE ms i = .error .panicked := by
  intro batch
  induction batch with
  | nil => intro m h; exact Except.noConfusion h
  | cons i rest ih =>
    intro m h
    rw [recomputeBatch] at h
    cases hone : recomputeOne m i with
    | error e =>
      rw [hone] at h
      have he : e = .panicked := Except.error.inj h
      subst he
      rw [recomputeOne] at hone
      cases hf : nodeFoldE m i with
      | error e' =>
        rw [hf] at hone
        have he' : e' = .panicked := by
          have h' : Except.error (α := ValueManager) e' = .error UFail.panicked := hone
          exact Except.error.inj h'
        exact ⟨m, i, fun j => rfl, rfl, he' ▸ hf⟩
      | ok x => rw [hf] at hone; exact Except.noConfusion hone
    | ok m0 =>
      rw [hone] at h
      obtain ⟨x, hfold, hm0⟩ := recomputeOne_ok hone
      obtain ⟨ms, j, hps, hlen, hnf⟩ := ih m0 h
      refine ⟨ms, j, ?_, ?_, hnf⟩
      · intro jj
        rw [hps jj, hm0, parasSteps_setValueAt]
      · rw [hlen, hm0, length_setValueAt]

theorem recomputeLoopF_panic :
    ∀ (fuel : ℕ) (upd : List ℕ) (m : ValueManager) (tr : List ℕ),
      recomputeLoopF m tr fuel upd = .error .panicked →
      ∃ ms i, (∀ j, parasSteps ms j = parasSteps m j) ∧
        ms.values.length = m.values.length ∧
        nodeFoldE ms i = .error .panicked := by
  intro fuel
  induction fuel with
  | zero =>
    intro upd m tr h
    cases upd with
    | nil => rw [recomputeLoopF_nil] at h; exact Except.noConfusion h
    | cons u us =>
      exact absurd (Except.error.inj h) (by intro hx; exact UFail.noConfusion hx)
  | succ fuel ih =>
    intro upd m tr h
    cases upd with
    | nil => rw [recomputeLoopF_nil] at h; exact Except.noConfusion h
    | cons u us =>
      have hstep : recomputeLoopF m tr (fuel + 1) (u :: us) =
          (if (scanBatch m (u :: us)).1.isEmpty then .error .cycle
           else match recomputeBatch m (scanBatch m (u :: us)).1 with
             | .error e => .error e
             | .ok m1 => recomputeLoopF m1 (tr ++ (scanBatch m (u :: us)).1)
                 fuel (scanBatch m (u :: us)).2) := rfl
      rw [hstep] at h
      by_cases hbe : (scanBatch m (u :: us)).1.isEmpty
      · rw [if_pos hbe] at h
        exact absurd (Except.error.inj h) (by intro hx; exact UFail.noConfusion hx)
      rw [if_neg hbe] at h
      cases hrb : recomputeBatch m (scanBatch m (u :: us)).1 with
      | error e =>
        rw [hrb] at h
        have he : e = .panicked := Except.error.inj h
        subst he
        exact recomputeBatch_panic _ m hrb
      | ok m1 =>
        rw [hrb] at h
        obtain ⟨g1, g2, g3, g4, g5, g6⟩ :=
          recomputeBatch_frame (scanBatch m (u :: us)).1 m m1 hrb
        obtain ⟨ms, j, hps, hlen, hnf⟩ := ih _ m1 _ h
        exact ⟨ms, j, fun jj => by rw [hps jj, g6 jj],
          by rw [hlen, g4], hnf⟩

/-- An `unwrap` panic during `update()` originates at a `MAX`/`MIN`
fold step one of whose operands is NaN, in a state whose graph
structure coincides with the input's. -/
theorem update_panic_origin {m : ValueManager}
    (h : m.update = .error .panicked) :
    ∃ ms i pre f p suf acc', (∀ j, parasSteps ms j = parasSteps m j) ∧
      ms.values.length = m.values.length ∧
      parasSteps ms i = pre ++ (f, p) :: suf ∧
      foldF16 ms pre (baseAt ms i) = .ok acc' ∧ (f = 1 ∨ f = 2) ∧
      (acc' = .nan ∨ valueAt ms p = .nan) := by
  have hrun : runUpdate m = .error .panicked := by
    rw [ValueManager.update] at h
    cases hr : runUpdate m with
    | ok p => rw [hr] at h; exact Except.noConfusion h
    | error e =>
      rw [hr] at h
      have : e = .panicked := by
        have h' : Except.error (α := ValueManager) e = .error UFail.panicked := h
        exact Except.error.inj h'
      rw [this]
  obtain ⟨cm1, cm2, cm3, cm4, cm5, cm6, cm7⟩ := commit_spec m
  obtain ⟨ms, i, hps, hlen, hnf⟩ := recomputeLoopF_panic _ _ (commit m).1 [] hrun
  obtain ⟨pre, f, p, suf, acc', hsplit, hpre, hf12, hnan⟩ := nodeFoldE_panic hnf
  exact ⟨ms, i, pre, f, p, suf, acc',
    fun j => by rw [hps j, cm6 j], by rw [hlen, cm4], hsplit, hpre, hf12, hnan⟩

/-! ### Remaining helpers and concrete example graphs -/

theorem acyclic_of_childGtParents {m : ValueManager}
    (h : childGtParents m = true) : Acyclic m := by
  refine ⟨fun i => i, ?_⟩
  intro c fp hfp
  by_cases hc : c < m.values.length
  · rw [childGtParents, List.all_eq_true] at h
    have h2 := h c (List.mem_range.mpr hc)
    rw [List.all_eq_true] at h2
    exact of_decide_eq_true (h2 fp hfp)
  · rw [parasSteps_oob (Nat.le_of_not_lt hc)] at hfp
    simp at hfp

theorem commitLoop_no_change :
    ∀ (cands : List ℕ) (m : ValueManager) (upd : List ℕ),
      (∀ i ∈ cands, changeAt m i = F16.fin 0) →
      commitLoop m upd cands = (m, upd) := by
  intro cands
  induction cands with
  | nil => intro m upd _; rfl
  | cons i rest ih =>
    intro m upd h
    rw [commitLoop, if_neg (not_not_intro (h i (List.mem_cons_self i rest)))]
    exact ih m upd (fun j hj => h j (List.mem_cons_of_mem i hj))

/-- Constants plus leaf `A = 10` and a node `C` declared `SET(A)` with
base `0`: the smallest graph on which the lazy initial value of the
source (`value := base`) is observable. -/
def exampleAC : ValueManager :=
  (vmNew.add_value "A" (.fin 10) [] []).add_value "C" (.fin 0) ["SET"] ["A"]

/-- State of `exampleAC` after an external writer pushes a pending
delta `+3` into the handle of `A` (node index 5). -/
def exampleACd : ValueManager := writeChange exampleAC 5 (.fin 3)

/-- The state `update()` produces from `exampleACd`: `A` committed to
`13` and republished, `C` recomputed to `13`. -/
def exampleACdPost : ValueManager :=
  ⟨[("0", ⟨.fin 0, .fin 0, .fin 0, none⟩),
    ("1", ⟨.fin 1, .fin 1, .fin 0, none⟩),
    ("-1", ⟨.fin (-1), .fin (-1), .fin 0, none⟩),
    ("2", ⟨.fin 2, .fin 2, .fin 0, none⟩),
    ("-2", ⟨.fin (-2), .fin (-2), .fin 0, none⟩),
    ("A", ⟨.fin 13, .fin 13, .fin 0, none⟩),
    ("C", ⟨.fin 0, .fin 13, .fin 0, some 0⟩)], [[(0, 5)]]⟩

/-- Constants plus the single leaf `A = 10` carrying a pending delta
`+3`. -/
def exampleLeafD : ValueManager :=
  writeChange (vmNew.add_value "A" (.fin 10) [] []) 5 (.fin 3)

/-- The state `update()` produces from `exampleLeafD`. -/
def exampleLeafDPost : ValueManager :=
  ⟨[("0", ⟨.fin 0, .fin 0, .fin 0, none⟩),
    ("1", ⟨.fin 1, .fin 1, .fin 0, none⟩),
    ("-1", ⟨.fin (-1), .fin (-1), .fin 0, none⟩),
    ("2", ⟨.fin 2, .fin 2, .fin 0, none⟩),
    ("-2", ⟨.fin (-2), .fin (-2), .fin 0, none⟩),
    ("A", ⟨.fin 13, .fin 13, .fin 0, none⟩)], []⟩

/-- Constants plus a leaf `N` whose base is NaN and a node `M` declared
`MAX(N)`, with a pending delta on `N` so that `update()` must recompute
`M` and hit the `unwrap` panic. -/
def exampleNan : ValueManager :=
  writeChange ((vmNew.add_value "N" .nan [] []).add_value
    "M" (.fin 1) ["MAX"] ["N"]) 5 (.fin 1)

/-- The spec's worked example: leaves `A = 10`, `B = 5` and
`C = SET(A) then ADD(B)` with base `0`. -/
def exampleABC : ValueManager :=
  ((vmNew.add_value "A" (.fin 10) [] []).add_value "B" (.fin 5) [] []).add_value
    "C" (.fin 0) ["SET", "ADD"] ["A", "B"]

/-- Constants plus the single leaf `L` with base `2048` carrying a
pending delta `+1`: both values are exactly representable in `f16`, but
`2049` is not (the `f16` spacing at that magnitude is `2`), so the
commit's rounded addition absorbs the delta completely. -/
def example2048 : ValueManager :=
  writeChange (vmNew.add_value "L" (.fin 2048) [] []) 5 (.fin 1)

/-- The state `update()` produces from `example2048`: the delta is
zeroed but the base is unchanged — `f16(2048 + 1) = 2048`. -/
def example2048Post : ValueManager :=
  ⟨[("0", ⟨.fin 0, .fin 0, .fin 0, none⟩),
    ("1", ⟨.fin 1, .fin 1, .fin 0, none⟩),
    ("-1", ⟨.fin (-1), .fin (-1), .fin 0, none⟩),
    ("2", ⟨.fin 2, .fin 2, .fin 0, none⟩),
    ("-2", ⟨.fin (-2), .fin (-2), .fin 0, none⟩),
    ("L", ⟨.fin 2048, .fin 2048, .fin 0, none⟩)], []⟩

/-! ### Claim theorems -/

/-- C1 (counterexample): the claim as stated is false on the code.  On
the acyclic, API-constructed graph `exampleAC` — leaf `A = 10`, node
`C = SET(A)` with base `0` — `update()` returns with `C`'s current value
still `0`, while the fold of `C`'s base through its declared operators
against its parent's post-update value is `10`: a node whose base never
received a delta is not recomputed, so the fold equation fails for nodes
that were not consistent before the call. -/
theorem c1_counterexample :
    Acyclic exampleAC ∧
    exampleAC.update = .ok exampleAC ∧
    ¬ consistentAt exampleAC 6 ∧
    nodeFoldE exampleAC 6 = .ok (.fin 10) ∧
    valueAt exampleAC 6 = .fin 0 :=
  ⟨acyclic_of_childGtParents (by decide), by decide, by decide, by decide,
    by decide⟩

/-- C1 (amended): under the added precondition that every node satisfied
its fold equation before the call, after `update()` returns successfully
every node `N` satisfies `N.value = fold(N.base, [(Op_i, P_i.value)])`
with every parent's post-update current value, and during the pass each
node's current value is recomputed at most once (the recompute trace has
no duplicates). -/
theorem c1_topological_consistency (m m' : ValueManager) (tr : List ℕ)
    (hpre : ∀ j, j < m.values.length → consistentAt m j)
    (hok : runUpdate m = .ok (m', tr)) :
    (∀ j, j < m.values.length → consistentAt m' j) ∧ tr.Nodup :=
  ⟨runUpdate_consistent hpre hok, (runUpdate_ok_spec hok).2.1⟩

unseal Rat.add in
/-- C1 (witness): the hypotheses of `c1_topological_consistency` hold
and its conclusion is obtained on the concrete graph `exampleLeafD`. -/
theorem c1_topological_consistency_witness :
    (∀ j, j < exampleLeafD.values.length → consistentAt exampleLeafD j) ∧
    ((∀ j, j < exampleLeafD.values.length → consistentAt exampleLeafDPost j) ∧
      ([5] : List ℕ).Nodup) :=
  ⟨by decide, c1_topological_consistency exampleLeafD exampleLeafDPost [5]
    (by decide) (by decide)⟩

unseal Rat.add in
/-- C2 (counterexample): the claim as stated is false on the code.  The
leaf `L` holds the exactly-representable `f16` base `2048`; pushing the
exactly-representable delta `1` into its handle and calling `update()`
succeeds and zeroes the delta slot, but the commit computes
`f16::from_f32(2048 + 1) = 2048`: the base is unchanged — it did not
change by exactly `d = 1` (which would give `2049`). -/
theorem c2_counterexample :
    baseAt example2048 5 = .fin 2048 ∧
    changeAt example2048 5 = .fin 1 ∧
    runUpdate example2048 = .ok (example2048Post, [5]) ∧
    baseAt example2048Post 5 = .fin 2048 ∧
    F16.fin 2048 ≠ F16.fin (2048 + 1) :=
  ⟨by decide, by decide, by decide, by decide, by decide⟩

/-- C2 (amended): writing a pending delta `d ≠ 0` into the handle of a
leaf node `L` (all other deltas zero) and calling `update()`
successfully sets `L`'s base to the `f16` rounding of `base + d` — the
delta can be partly or wholly absorbed by rounding — zeroes the delta
slot, recomputes exactly `L` and its transitive descendants (the
recompute trace is precisely the reachability set of `L`), and leaves
the base and current value of every other node unchanged. -/
theorem c2_delta_roundtrip (m m' : ValueManager) (tr : List ℕ) (L : ℕ)
    (b d : ℚ)
    (hL : L < m.values.length)
    (hleaf : ∃ v, getNode m L = some v ∧ v.paras = none)
    (hbase : baseAt m L = .fin b)
    (hd : changeAt m L = .fin d)
    (hdnz : d ≠ 0)
    (hothers : ∀ j, j < m.values.length → j ≠ L → changeAt m j = F16.fin 0)
    (hok : runUpdate m = .ok (m', tr)) :
    baseAt m' L = fADD (.fin b) (.fin d) ∧
    changeAt m' L = .fin 0 ∧
    (∀ x, x ∈ tr ↔ Reaches m L x) ∧
    (∀ j, ¬ Reaches m L j →
      baseAt m' j = baseAt m j ∧ valueAt m' j = valueAt m j) := by
  obtain ⟨S1, S2, S3, S4, S5, S6, S7, S8⟩ := runUpdate_ok_spec hok
  have hLne : changeAt m L ≠ F16.fin 0 := by
    rw [hd]
    intro hcon
    exact hdnz (F16.fin.inj hcon)
  have hdirty : ∀ j, (j < m.values.length ∧ changeAt m j ≠ F16.fin 0) ↔ j = L := by
    intro j
    constructor
    · rintro ⟨hj, hcj⟩
      by_contra hne
      exact hcj (hothers j hj hne)
    · rintro rfl
      exact ⟨hL, hLne⟩
  refine ⟨?_, ?_, ?_, ?_⟩
  · obtain ⟨hb, _⟩ := S4 L hLne
    rw [hb, hbase, hd]
  · exact (S4 L hLne).2
  · intro x
    rw [S1 x]
    constructor
    · rintro ⟨j, hj, hr⟩
      rwa [(hdirty j).mp hj] at hr
    · intro hr
      exact ⟨L, (hdirty L).mpr rfl, hr⟩
  · intro j hnr
    have hjtr : j ∉ tr := by
      rw [S1 j]
      rintro ⟨i, hi, hr⟩
      rw [(hdirty i).mp hi] at hr
      exact hnr hr
    have hg := S3 j hjtr
    exact ⟨by rw [baseAt, hg, baseAt], by rw [valueAt, hg, valueAt]⟩

unseal Rat.add in
/-- C2 (witness): the hypotheses of `c2_delta_roundtrip` hold and its
conclusion is obtained on `exampleACd` (delta `+3` on leaf `A = 10`,
with descendant `C = SET(A)`). -/
theorem c2_delta_roundtrip_witness :
    ((5 < exampleACd.values.length) ∧
      (∃ v, getNode exampleACd 5 = some v ∧ v.paras = none) ∧
      baseAt exampleACd 5 = .fin 10 ∧
      changeAt exampleACd 5 = .fin 3 ∧
      (3 : ℚ) ≠ 0 ∧
      (∀ j, j < exampleACd.values.length → j ≠ 5 →
        changeAt exampleACd j = F16.fin 0) ∧
      runUpdate exampleACd = .ok (exampleACdPost, [5, 6])) ∧
    (baseAt exampleACdPost 5 = fADD (.fin 10) (.fin 3) ∧
      changeAt exampleACdPost 5 = .fin 0 ∧
      (∀ x, x ∈ ([5, 6] : List ℕ) ↔ Reaches exampleACd 5 x) ∧
      (∀ j, ¬ Reaches exampleACd 5 j →
        baseAt exampleACdPost j = baseAt exampleACd j ∧
        valueAt exampleACdPost j = valueAt exampleACd j)) :=
  ⟨⟨by decide, ⟨⟨.fin 10, .fin 10, .fin 3, none⟩, by decide, rfl⟩, by decide,
      by decide, by decide, by decide, by decide⟩,
    c2_delta_roundtrip exampleACd exampleACdPost [5, 6] 5 10 3 (by decide)
      ⟨⟨.fin 10, .fin 10, .fin 3, none⟩, by decide, rfl⟩ (by decide) (by decide)
      (by decide) (by decide) (by decide)⟩

unseal Rat.add in
/-- C3: contrary to the claim (and to the spec's worked example, which
the code's own use of `SET`-headed operator chains with base `0` relies
on), `add_value` does not fold the base through the declared operators
at registration: it sets the initial current value to the base.  On the
spec's example — `A = 10`, `B = 5`, `C = SET(A) then ADD(B)` with base
`0` — `C`'s current value right after registration is `0`, although the
declared derivation evaluates to `15`. -/
theorem c3_lazy_initial_value :
    valueAt exampleABC 7 = .fin 0 ∧
    nodeFoldE exampleABC 7 = .ok (.fin 15) ∧
    F16.fin 0 ≠ F16.fin 15 :=
  ⟨by decide, by decide, by decide⟩

/-- C4 (counterexample): the claim as stated is false on the code.
Registering `X` with the pair `(ADD, "NoSuchParent")` against the fresh
manager neither fails nor aborts: the node is appended (six nodes now),
and its recorded operator list is empty — the dangling pair was silently
dropped. -/
theorem c4_counterexample :
    (vmNew.add_value "X" (.fin 1) ["ADD"] ["NoSuchParent"]).values.length = 6 ∧
    (vmNew.add_value "X" (.fin 1) ["ADD"] ["NoSuchParent"]).paras = [[]] ∧
    (vmNew.add_value "X" (.fin 1) ["ADD"] ["NoSuchParent"]).values.map
      Prod.fst = ["0", "1", "-1", "2", "-2", "X"] :=
  ⟨by decide, by decide, by decide⟩

/-- C4 (amended): `add_value` never fails on an unknown parent name;
it silently drops the operator/parent pair.  The node is still appended
(with current value equal to its base, a zero delta, and a fresh `paras`
entry), and the recorded pair list for a single dangling pair is
empty. -/
theorem c4_dangling_parent_dropped (m : ValueManager) (name : String)
    (base : F16) (fn pn : String)
    (h : m.values.findIdx? (fun nv => nv.1 = pn) = none) :
    (m.add_value name base [fn] [pn]).values.length = m.values.length + 1 ∧
    (m.add_value name base [fn] [pn]).paras = m.paras ++ [[]] ∧
    getNode (m.add_value name base [fn] [pn]) m.values.length =
      some ⟨base, base, .fin 0, some m.paras.length⟩ := by
  have hav : m.add_value name base [fn] [pn] =
      { values := m.values ++ [(name, ⟨base, base, .fin 0, some m.paras.length⟩)],
        paras := m.paras ++ [[]] } := by
    simp [ValueManager.add_value, h]
  rw [hav]
  refine ⟨by simp, rfl, ?_⟩
  rw [getNode]
  simp [List.getElem?_concat_length]

/-- C4 (witness): the hypothesis of `c4_dangling_parent_dropped` holds
and its conclusion is obtained on the fresh manager. -/
theorem c4_dangling_parent_dropped_witness :
    (vmNew.values.findIdx? (fun nv => nv.1 = "NoSuchParent") = none) ∧
    ((vmNew.add_value "X" (.fin 1) ["ADD"] ["NoSuchParent"]).values.length =
        vmNew.values.length + 1 ∧
      (vmNew.add_value "X" (.fin 1) ["ADD"] ["NoSuchParent"]).paras =
        vmNew.paras ++ [[]] ∧
      getNode (vmNew.add_value "X" (.fin 1) ["ADD"] ["NoSuchParent"])
          vmNew.values.length =
        some ⟨.fin 1, .fin 1, .fin 0, some vmNew.paras.length⟩) :=
  ⟨by decide, c4_dangling_parent_dropped vmNew "X" (.fin 1) "ADD"
    "NoSuchParent" (by decide)⟩

/-- C5: with every pending delta zero, `update()` commits nothing,
expands nothing, recomputes nothing (empty trace) and returns the state
unchanged, so arbitrarily repeated calls leave every node's base and
current value unchanged. -/
theorem c5_update_idempotent (m : ValueManager)
    (h : ∀ i, i < m.values.length → changeAt m i = F16.fin 0) :
    runUpdate m = .ok (m, []) ∧ m.update = .ok m := by
  have hcommit : commit m = (m, []) := by
    rw [commit]
    exact commitLoop_no_change _ m [] (fun i hi => h i (List.mem_range.mp hi))
  have h1 : runUpdate m = .ok (m, []) := by
    show recomputeLoopF (commit m).1 []
        (expandF (commit m).1
          (2 * (commit m).1.values.length + (commit m).2.length)
          (commit m).2 (commit m).2).length
        (expandF (commit m).1
          (2 * (commit m).1.values.length + (commit m).2.length)
          (commit m).2 (commit m).2) = .ok (m, [])
    rw [hcommit]
    rw [expandF_nil, recomputeLoopF_nil]
  refine ⟨h1, ?_⟩
  rw [ValueManager.update, h1]
  rfl

/-- C5 (witness): the hypothesis of `c5_update_idempotent` holds and its
conclusion is obtained on the fresh manager. -/
theorem c5_update_idempotent_witness :
    (∀ i, i < vmNew.values.length → changeAt vmNew i = F16.fin 0) ∧
    (runUpdate vmNew = .ok (vmNew, []) ∧ vmNew.update = .ok vmNew) :=
  ⟨by decide, c5_update_idempotent vmNew (by decide)⟩

/-- C6: on an acyclic graph (witnessed by a rank function that strictly
increases from parent to child) `update()` never reports the
empty-batch divergence: in the model the non-terminating outer loop of
the source — an iteration that removes no node repeats forever on an
unchanged state — is represented exactly by the `UFail.cycle` result,
and on an acyclic graph every scan of a non-empty dirty list removes at
least one node. -/
theorem c6_update_no_cycle (m : ValueManager) (hac : Acyclic m) :
    runUpdate m ≠ .error UFail.cycle ∧ m.update ≠ .error UFail.cycle := by
  refine ⟨runUpdate_ne_cycle hac, ?_⟩
  intro h
  rw [ValueManager.update] at h
  cases hr : runUpdate m with
  | ok p => rw [hr] at h; exact Except.noConfusion h
  | error e =>
    rw [hr] at h
    have he : e = .cycle := by
      have h' : Except.error (α := ValueManager) e = .error UFail.cycle := h
      exact Except.error.inj h'
    exact runUpdate_ne_cycle hac (he ▸ hr)

/-- C6 (witness): the hypothesis of `c6_update_no_cycle` holds and its
conclusion is obtained on the concrete acyclic graph `exampleACd`. -/
theorem c6_update_no_cycle_witness :
    Acyclic exampleACd ∧
    (runUpdate exampleACd ≠ .error UFail.cycle ∧
      exampleACd.update ≠ .error UFail.cycle) :=
  ⟨acyclic_of_childGtParents (by decide),
    c6_update_no_cycle exampleACd (acyclic_of_childGtParents (by decide))⟩

/-- C7 (counterexample): the claim as stated is false on the code.  The
queued-event type `LoopEvent` offers exactly three kinds — delete
entity, change a component via a supplied function, change a resource
via a supplied function — not the five kinds the claim lists (there is
no enable-domain, disable-domain, or remove-component event). -/
theorem c7_counterexample :
    Fintype.card LoopEventKind = 3 ∧ (3 : ℕ) ≠ 5 :=
  ⟨by decide, by decide⟩

/-- C7 (amended): the queued-event type consists of exactly three
kinds — delete entity, apply a typed change to a component via a
supplied function, apply a typed change to a resource via a supplied
function — and draining the queue applies each accordingly, in FIFO
order: deletion removes the entity from the store, a component change
invokes the carried function on the store with the carried payload, a
resource change invokes it on the resource set. -/
theorem c7_event_dispatch :
    Fintype.card LoopEventKind = 3 ∧
    (∀ (ρ α : Type) (w : SimWorld) (r : ρ) (e : ℕ),
      applyLoopEvent w r (LoopEvent.RemoveEntity (ρ := ρ) (α := α) e) =
        (deleteEntity w e, r) ∧ e ∉ (deleteEntity w e).ents) ∧
    (∀ (ρ α : Type) (w : SimWorld) (r : ρ) (e : ℕ) (payload : α)
      (f : SimWorld → ℕ → α → SimWorld),
      applyLoopEvent w r (LoopEvent.ChangeComponent e payload f) =
        (f w e payload, r)) ∧
    (∀ (ρ α : Type) (w : SimWorld) (r : ρ) (payload : α) (f : ρ → α → ρ),
      applyLoopEvent w r (LoopEvent.ChangeResource payload f) =
        (w, f r payload)) ∧
    (∀ (ρ α : Type) (w : SimWorld) (r : ρ)
      (evs1 evs2 : List (LoopEvent ρ α)),
      handle_event w r (evs1 ++ evs2) =
        handle_event (handle_event w r evs1).1 (handle_event w r evs1).2 evs2) := by
  refine ⟨by decide, ?_, fun ρ α w r e p f => rfl, fun ρ α w r p f => rfl, ?_⟩
  · intro ρ α w r e
    refine ⟨rfl, ?_⟩
    simp [deleteEntity]
  · intro ρ α w r evs1 evs2
    rw [handle_event, handle_event, handle_event, List.foldl_append]

/-- C9: a freshly constructed manager contains exactly the five constant
leaves `"0", "1", "-1", "2", "-2"` at indices 0 through 4, each with
base and current value equal to its name, zero pending delta and no
operators; every later `add_value` appends after them (so user indices
start at 5), and a user node can name a constant as a parent — for
example `DIV` by `"2"` resolves to operator code 6 and parent index 3. -/
theorem c9_constant_leaves :
    vmNew.values =
      [("0", ⟨.fin 0, .fin 0, .fin 0, none⟩),
       ("1", ⟨.fin 1, .fin 1, .fin 0, none⟩),
       ("-1", ⟨.fin (-1), .fin (-1), .fin 0, none⟩),
       ("2", ⟨.fin 2, .fin 2, .fin 0, none⟩),
       ("-2", ⟨.fin (-2), .fin (-2), .fin 0, none⟩)] ∧
    vmNew.values.length = 5 ∧
    vmNew.paras = [] ∧
    (∀ (m : ValueManager) (name : String) (base : F16)
      (funcs parents : List String),
      (m.add_value name base funcs parents).values.length =
        m.values.length + 1 ∧
      (m.add_value name base funcs parents).values.take m.values.length =
        m.values) ∧
    (vmNew.add_value "H" (.fin 7) ["DIV"] ["2"]).paras = [[(6, 3)]] := by
  refine ⟨by decide, by decide, by decide, ?_, by decide⟩
  intro m name base funcs parents
  rw [ValueManager.add_value.eq_def]
  cases funcs with
  | nil => exact ⟨by simp, by rw [List.take_left]⟩
  | cons f fs => exact ⟨by simp, by rw [List.take_left]⟩

/-- C10: the `MAX`/`MIN` operators panic exactly when one of their two
operands (accumulated value or parent value) is NaN — the `unwrap` of a
failed `partial_cmp`; the other eight operators are total on all inputs,
including division by zero; and consequently a panic during `update()`
originates only at a `MAX`/`MIN` fold step reached with a NaN operand,
the steps before it having folded normally. -/
theorem c10_panic_characterization :
    (∀ x y, applyFunc 1 x y = none ↔ x = .nan ∨ y = .nan) ∧
    (∀ x y, applyFunc 2 x y = none ↔ x = .nan ∨ y = .nan) ∧
    (∀ f, f < 10 → f ≠ 1 → f ≠ 2 → ∀ x y, ∃ r, applyFunc f x y = some r) ∧
    (∀ m : ValueManager, m.update = .error .panicked →
      ∃ ms i pre f p suf acc', (∀ j, parasSteps ms j = parasSteps m j) ∧
        ms.values.length = m.values.length ∧
        parasSteps ms i = pre ++ (f, p) :: suf ∧
        foldF16 ms pre (baseAt ms i) = .ok acc' ∧
        (f = 1 ∨ f = 2) ∧
        (acc' = .nan ∨ valueAt ms p = .nan)) :=
  ⟨applyFunc_max_none_iff, applyFunc_min_none_iff, applyFunc_total,
    fun _ h => update_panic_origin h⟩

/-- C10 (witness): the panic characterization applied at concrete
inputs — `MAX` on a NaN operand panics, division by zero is total, and
the concrete graph `exampleNan` (`MAX` over a NaN parent) makes
`update()` panic, exhibiting a NaN at a `MAX`/`MIN` fold step. -/
theorem c10_panic_characterization_witness :
    applyFunc 1 F16.nan (.fin 0) = none ∧
    (∃ r, applyFunc 6 (.fin 1) (.fin 0) = some r) ∧
    exampleNan.update = .error .panicked ∧
    (∃ ms i pre f p suf acc',
      (∀ j, parasSteps ms j = parasSteps exampleNan j) ∧
      ms.values.length = exampleNan.values.length ∧
      parasSteps ms i = pre ++ (f, p) :: suf ∧
      foldF16 ms pre (baseAt ms i) = .ok acc' ∧
      (f = 1 ∨ f = 2) ∧
      (acc' = .nan ∨ valueAt ms p = .nan)) :=
  ⟨(c10_panic_characterization.1 F16.nan (.fin 0)).mpr (Or.inl rfl),
    c10_panic_characterization.2.2.1 6 (by decide) (by decide) (by decide)
      (.fin 1) (.fin 0),
    by decide,
    c10_panic_characterization.2.2.2 exampleNan (by decide)⟩

end P4

